import Mathlib

/-!
Verification of the source-code compaction engine in
`backend/utils/code_compressor.py` (class `CodeCompressor`) and
`backend/utils/identifier_shortener.py` (class `IdentifierShortener`).

Python strings are embedded as `List Char`.  Python `str.replace`,
`re.sub(r'# dict:.*?\n', '', _)`, decimal rendering of marker indices and
the occurrence-counting `find` loop are recursive; they are defined here
with an explicit fuel argument (always called with fuel at least the
length of the scanned string) so that every definition is a computable
structural recursion that the kernel can evaluate.
-/

/-- Characters of the decimal representation: `digCh d` is the digit
character for `d % 10`. -/
def digCh (n : Nat) : Char := Char.ofNat (48 + n % 10)

/-- Decimal digits of a natural number, most significant first, with fuel.
`digsF 0 n` is never reached when the fuel is at least `n + 1`. -/
def digsF : Nat → Nat → List Char
  | 0, _ => []
  | f + 1, n => if n < 10 then [digCh n] else digsF f (n / 10) ++ [digCh (n % 10)]

/-- Decimal representation of `n`, as produced by Python string interpolation. -/
def natDigs (n : Nat) : List Char := digsF (n + 1) n

/-- The marker text for rank index `i`: the Python f-string interpolation
producing the marker of the fixed textual form with `i` in decimal
(`code_compressor.py:185`). -/
def marker (i : Nat) : List Char := '#' :: '#' :: (natDigs i ++ ['#', '#'])

/-- One scanning step of Python `str.replace(old, new)` for a nonempty
`old` pattern `p`: leftmost, non-overlapping, the inserted replacement is
never rescanned.  Fuel-structural; `f ≥ s.length` makes it total. -/
def replF (p r : List Char) : Nat → List Char → List Char
  | 0, s => s
  | f + 1, s =>
    if p = [] then s
    else if p.isPrefixOf s then r ++ replF p r f (s.drop p.length)
    else
      match s with
      | [] => []
      | c :: t => c :: replF p r f t

/-- Python `s.replace(p, r)`.  The `p = []` branch models CPython's
behaviour of inserting `r` at every character boundary. -/
def pyReplace (s p r : List Char) : List Char :=
  if p = [] then r ++ s.flatMap (fun c => c :: r) else replF p r s.length s

/-- The substring `code[i : i+len]` (Python slicing). -/
def sliceAt (code : List Char) (i len : Nat) : List Char := (code.drop i).take len

/-- Test of `re.search(r'[a-zA-Z]', pattern)`: the pattern contains at
least one ASCII letter (`code_compressor.py:115`). -/
def hasAlpha (p : List Char) : Bool :=
  p.any fun c => decide (('a' ≤ c ∧ c ≤ 'z') ∨ ('A' ≤ c ∧ c ≤ 'Z'))

/-- `code.find(pattern, pos)`: the least index `i ≥ pos` at which `pattern`
occurs in `code`, if any (`code_compressor.py:121`). -/
def findFrom (code pat : List Char) (pos : Nat) : Option Nat :=
  (List.range' pos (code.length + 1 - pos)).find? fun i =>
    decide (sliceAt code i pat.length = pat)

/-- The occurrence-counting loop of `detect_common_patterns`
(`code_compressor.py:118-126`): repeated forward search, restarting one
character after each hit, so overlapping occurrences are counted. -/
def countF (code pat : List Char) : Nat → Nat → Nat
  | 0, _ => 0
  | f + 1, pos =>
    match findFrom code pat pos with
    | none => 0
    | some i => 1 + countF code pat f (i + 1)

/-- The occurrence count of `pat` in `code` as computed by the find loop. -/
def occCount (code pat : List Char) : Nat := countF code pat (code.length + 1) 0

/-- Association-list lookup for the Python dict `self.common_patterns`. -/
def alookup (m : List (List Char × Nat)) (k : List Char) : Option Nat :=
  match m with
  | [] => none
  | (k', v) :: t => if k' = k then some v else alookup t k

/-- Python dict assignment `d[k] = v`: overwrite in place if the key is
present (keeping its original position), append otherwise. -/
def dinsert (m : List (List Char × Nat)) (k : List Char) (v : Nat) :
    List (List Char × Nat) :=
  if (alookup m k).isSome then m.map fun kv => if kv.1 = k then (k, v) else kv
  else m ++ [(k, v)]

/-- The candidate substrings enumerated by `detect_common_patterns`
(`code_compressor.py:108-113`): lengths from `min_pattern_length = 20` up
to (but excluding) 100, stopping at the first length exceeding the text
(`break`), and every starting offset for each length. -/
def cands (code : List Char) : List (List Char) :=
  ((List.range' 20 80).takeWhile fun len => decide (len ≤ code.length)).flatMap
    fun len => (List.range (code.length + 1 - len)).map fun i => sliceAt code i len

/-- `CodeCompressor.detect_common_patterns` (`code_compressor.py:104-131`):
rebuilds the pattern table from scratch; candidates with no alphabetic
character are skipped, occurrences are counted by the find loop, and the
candidate is recorded exactly when the count exceeds one. -/
def detect_common_patterns (code : List Char) : List (List Char × Nat) :=
  (cands code).foldl
    (fun tbl p =>
      if hasAlpha p then
        if 1 < occCount code p then dinsert tbl p (occCount code p) else tbl
      else tbl)
    []

/-- The qualifying filter of `compress_patterns` (`code_compressor.py:173-175`):
`len(pattern) * (count - 1) > len(pattern) + 10`, in Python's exact integer
arithmetic. -/
def saves (pc : List Char × Nat) : Bool :=
  decide ((pc.1.length : Int) * ((pc.2 : Int) - 1) > (pc.1.length : Int) + 10)

/-- The sort key `len(x[0]) * x[1]` of `compress_patterns`
(`code_compressor.py:176`). -/
def sortKey (pc : List Char × Nat) : Nat := pc.1.length * pc.2

/-- One insertion step of a stable descending sort by `sortKey`, matching
Python's stable `sorted(..., reverse=True)`: an element is placed after
every earlier element whose key is at least as large. -/
def insDesc (x : List Char × Nat) : List (List Char × Nat) → List (List Char × Nat)
  | [] => [x]
  | y :: t => if sortKey y ≤ sortKey x then x :: y :: t else y :: insDesc x t

/-- Stable descending sort by `sortKey` (`sorted(..., key=..., reverse=True)`). -/
def sortDesc : List (List Char × Nat) → List (List Char × Nat)
  | [] => []
  | x :: t => insDesc x (sortDesc t)

/-- The patterns chosen for substitution by `compress_patterns`
(`code_compressor.py:171-184`): filter by net savings, sort descending by
`len * count`, take the first `min(len, 30)`. -/
def selectedPatterns (tbl : List (List Char × Nat)) : List (List Char × Nat) :=
  (sortDesc (tbl.filter saves)).take 30

/-- The substitution loop of `compress_patterns` (`code_compressor.py:183-187`):
pattern of rank `i` is replaced everywhere by the marker text for `i`,
each replacement operating on the already-substituted text. -/
def applySubs (code : List Char) : List (List Char) → Nat → List Char
  | [], _ => code
  | p :: ps, i => applySubs (pyReplace code p (marker i)) ps (i + 1)

/-- The header entries `f"{replacement}={pattern}"` of `compress_patterns`
(`code_compressor.py:190`), in rank order starting at `i`. -/
def headerEntries : List (List Char) → Nat → List (List Char)
  | [], _ => []
  | p :: ps, i => (marker i ++ '=' :: p) :: headerEntries ps (i + 1)

/-- `";".join(...)` over the header entries. -/
def joinSemi : List (List Char) → List Char
  | [] => []
  | [x] => x
  | x :: xs => x ++ ';' :: joinSemi xs

/-- `CodeCompressor.compress_patterns` (`code_compressor.py:170-193`), with
the pattern table passed explicitly (the Python method reads it from
`self.common_patterns`): produces the artifact
`"# dict:" + dictionary + "\n" + substituted body`. -/
def compress_patterns (code : List Char) (tbl : List (List Char × Nat)) : List Char :=
  let sel := (selectedPatterns tbl).map Prod.fst
  "# dict:".toList ++ joinSemi (headerEntries sel 0) ++ '\n' :: applySubs code sel 0

/-- The condition under which `re.match(r'# dict:(.*?)\n', s)` succeeds:
`s` starts with the header text and a newline occurs somewhere after it
(`.` does not match a newline, `.*?` takes the run up to the first one). -/
def headerOkB (s : List Char) : Bool :=
  "# dict:".toList.isPrefixOf s && (s.drop 7).contains '\n'

/-- One pass of `re.sub(r'# dict:.*?\n', '', s)` (`code_compressor.py:202`):
left-to-right scan deleting every non-overlapping leftmost match, i.e. the
header text followed by the shortest run of non-newline characters and a
newline.  Fuel-structural; `f ≥ s.length` makes it total. -/
def stripF : Nat → List Char → List Char
  | 0, s => s
  | f + 1, s =>
    if headerOkB s then stripF f (((s.drop 7).dropWhile fun c => c != '\n').drop 1)
    else
      match s with
      | [] => []
      | c :: t => c :: stripF f t

/-- `re.sub(r'# dict:.*?\n', '', s)` with adequate fuel. -/
def stripAll (s : List Char) : List Char := stripF s.length s

/-- Python `dictionary.split(';')` on the embedded string. -/
def splitOnCh (sep : Char) : List Char → List (List Char)
  | [] => [[]]
  | c :: t =>
    let r := splitOnCh sep t
    if c = sep then [] :: r
    else
      match r with
      | [] => [[c]]
      | h :: hs => (c :: h) :: hs

/-- `CodeCompressor.decompress_code` (`code_compressor.py:195-211`): if the
header regex does not match at the start, return the input unchanged;
otherwise extract the dictionary, globally delete every `# dict:...\n`
match, and apply each `marker=pattern` item of the dictionary in order
with `str.replace` (items without `=` are skipped; `split('=', 1)` splits
at the first `=`). -/
def decompress_code (s : List Char) : List Char :=
  if headerOkB s then
    let dict := (s.drop 7).takeWhile fun c => c != '\n'
    let body := stripAll s
    (splitOnCh ';' dict).foldl
      (fun code item =>
        if item.contains '=' then
          pyReplace code (item.takeWhile fun c => c != '=')
            ((item.dropWhile fun c => c != '=').drop 1)
        else code)
      body
  else s

/-- The 52-symbol alphabet of `generate_short_identifier`
(`code_compressor.py:33`, identical in `identifier_shortener.py:26`). -/
def idChars : List Char := "abcdefghijklmnopqrstuvwxyzABCDEFGHIJKLMNOPQRSTUVWXYZ".toList

/-- `chars[n]` with the alphabet above (all call sites are in range). -/
def charAt (n : Nat) : Char := idChars.getD n 'a'

/-- `generate_short_identifier` (`code_compressor.py:32-44`,
`identifier_shortener.py:24-36`): reads `next_short_id`, increments it, and
returns one alphabet symbol for ids below 52, otherwise the two-symbol
code `chars[(id / 52) % 52] ++ chars[id % 52]`. -/
def generate_short_identifier (next_short_id : Nat) : List Char × Nat :=
  let id_num := next_short_id
  if id_num < idChars.length then ([charAt id_num], id_num + 1)
  else ([charAt (id_num / idChars.length % idChars.length), charAt (id_num % idChars.length)],
    id_num + 1)

/-- The counter value before call number `n`, starting from
`next_short_id = 0` and never resetting. -/
def stateAfter : Nat → Nat
  | 0 => 0
  | n + 1 => (generate_short_identifier (stateAfter n)).2

/-- The string returned by call number `n` (0-based) of the generator. -/
def nthShortId (n : Nat) : List Char := (generate_short_identifier (stateAfter n)).1

/-- Python exceptions relevant to `compress_with_ast`. -/
inductive PyErr
  | syntaxError
  | nameError
  deriving DecidableEq

/-- The try-body of `compress_with_ast` (`code_compressor.py:135-158`).
If `ast.parse` fails the body raises `SyntaxError`; if it succeeds, the
next statement `transformer = IdentifierShortener(...)` raises `NameError`,
because `code_compressor.py` neither defines nor imports
`IdentifierShortener` (the only definition lives in
`identifier_shortener.py`, which no module imports).  Either way the body
signals an exception before producing a value; `parseOk` abstracts over
which of the two it is. -/
def astAttempt (parseOk : Bool) (_code : List Char) : Except PyErr (List Char) :=
  if parseOk then Except.error PyErr.nameError else Except.error PyErr.syntaxError

/-- `CodeCompressor.compress_with_ast` (`code_compressor.py:133-164`): the
whole body is wrapped in `try ... except Exception`, and the handler
returns the input unchanged. -/
def compress_with_ast (parseOk : Bool) (code : List Char) : List Char :=
  match astAttempt parseOk code with
  | Except.ok t => t
  | Except.error _ => code

/-- `estimate_tokens` (`code_compressor.py:234-237`): `math.ceil(len(text)/4)`.
The float division is by a power of two, hence exact for every
representable length, so the exact rational ceiling is faithful. -/
def estimate_tokens (text : List Char) : Int := ⌈(text.length : ℚ) / 4⌉

/-- The ratio computed by `get_compression_report` (`code_compressor.py:217`):
`(compressed / original * 100) if original_length > 0 else 100`, as an
exact rational. -/
def ratioQ (original compressed : Nat) : ℚ :=
  if 0 < original then (compressed : ℚ) / (original : ℚ) * 100 else 100

/-- The numeric fields of the report produced by `get_compression_report`
(`code_compressor.py:213-232`). -/
structure CompReport where
  original_length : Nat
  compressed_length : Nat
  ratePct : ℚ
  original_tokens : Int
  compressed_tokens : Int
  tokenPct : ℚ
  deriving DecidableEq

/-- `get_compression_report` (`code_compressor.py:213-232`), returning the
computed fields; the Python method interpolates them into a fixed
template string and is total. -/
def get_compression_report (original compressed : List Char) : CompReport :=
  let original_length := original.length
  let compressed_length := compressed.length
  let original_tokens := estimate_tokens original
  let compressed_tokens := estimate_tokens compressed
  { original_length := original_length
    compressed_length := compressed_length
    ratePct := ratioQ original_length compressed_length
    original_tokens := original_tokens
    compressed_tokens := compressed_tokens
    tokenPct :=
      if 0 < original_tokens then (compressed_tokens : ℚ) / (original_tokens : ℚ) * 100
      else 100 }

/-- The fixed-field report text (`code_compressor.py:221-231`), assembled
from the computed fields; total by construction. -/
def reportText (original compressed : List Char) : String :=
  let r := get_compression_report original compressed
  "Compression Report: original " ++ toString r.original_length ++
    " chars, compressed " ++ toString r.compressed_length ++
    " chars, ratio " ++ toString r.ratePct ++
    " pct, tokens " ++ toString r.original_tokens ++
    " to " ++ toString r.compressed_tokens

/-- Test for a substring of the shape `##<digits>##` starting at the head
of `u` (used only to state claims about marker-free bodies). -/
def mkShapeAt (u : List Char) : Bool :=
  match u with
  | '#' :: '#' :: r =>
    let ds := r.takeWhile fun c => decide ('0' ≤ c ∧ c ≤ '9')
    !ds.isEmpty && decide ((r.drop ds.length).take 2 = ['#', '#'])
  | _ => false

/-- The body `s` contains a substring of the shape `##<digits>##`. -/
def containsMarkerSub (s : List Char) : Bool :=
  (List.range s.length).any fun i => mkShapeAt (s.drop i)

/-! ### Basic facts about the short-identifier generator -/

theorem idChars_len : idChars.length = 52 := by decide

theorem gsi_snd (k : Nat) : (generate_short_identifier k).2 = k + 1 := by
  unfold generate_short_identifier
  dsimp only
  split <;> rfl

theorem stateAfter_eq (n : Nat) : stateAfter n = n := by
  induction n with
  | zero => rfl
  | succ m ih => rw [stateAfter, ih, gsi_snd]

theorem nthShortId_eq (n : Nat) : nthShortId n = (generate_short_identifier n).1 := by
  rw [nthShortId, stateAfter_eq]

theorem charAt_inj : ∀ a < 52, ∀ b < 52, charAt a = charAt b → a = b := by decide

theorem nth_small {n : Nat} (h : n < 52) : nthShortId n = [charAt n] := by
  rw [nthShortId_eq]
  unfold generate_short_identifier
  rw [if_pos (by rw [idChars_len]; exact h)]

theorem nth_big {n : Nat} (h : ¬ n < 52) : nthShortId n = [charAt (n / 52 % 52), charAt (n % 52)] := by
  rw [nthShortId_eq]
  unfold generate_short_identifier
  rw [if_neg (by rw [idChars_len]; exact h), idChars_len]

/-- Claim C2: starting from `next_short_id = 0`, the strings returned by
the first 2756 calls to `generate_short_identifier` (call indices 0
through 2755) are pairwise distinct, and the string returned at call
index 2756 equals the string returned at call index 52. -/
theorem short_identifier_boundary :
    (∀ i j : Nat, i < 2756 → j < 2756 → i ≠ j → nthShortId i ≠ nthShortId j) ∧
    nthShortId 2756 = nthShortId 52 := by
  constructor
  · intro i j hi hj hne
    by_cases h1 : i < 52 <;> by_cases h2 : j < 52
    · rw [nth_small h1, nth_small h2]
      intro he
      exact hne (charAt_inj i h1 j h2 (by simpa using he))
    · rw [nth_small h1, nth_big h2]
      intro he
      simp at he
    · rw [nth_big h1, nth_small h2]
      intro he
      simp at he
    · rw [nth_big h1, nth_big h2]
      intro he
      simp only [List.cons.injEq, and_true] at he
      obtain ⟨e1, e2⟩ := he
      have d1 := charAt_inj _ (Nat.mod_lt _ (by norm_num)) _ (Nat.mod_lt _ (by norm_num)) e1
      have d2 := charAt_inj _ (Nat.mod_lt _ (by norm_num)) _ (Nat.mod_lt _ (by norm_num)) e2
      omega
  · rw [nth_big (by omega), nth_big (by omega)]

/-- Witness for C2 at concrete call indices 0 and 1. -/
theorem short_identifier_boundary_witness : nthShortId 0 ≠ nthShortId 1 :=
  short_identifier_boundary.1 0 1 (by norm_num) (by norm_num) (by decide)

/-! ### Selection, bounded dictionary, savings threshold -/

theorem mem_insDesc {x y : List Char × Nat} {l : List (List Char × Nat)}
    (h : y ∈ insDesc x l) : y = x ∨ y ∈ l := by
  induction l with
  | nil => simpa [insDesc] using h
  | cons z t ih =>
    rw [insDesc] at h
    split at h
    · rcases List.mem_cons.mp h with h | h
      · exact Or.inl h
      · exact Or.inr h
    · rcases List.mem_cons.mp h with h | h
      · right
        rw [h]
        exact List.mem_cons_self _ _
      · rcases ih h with h' | h'
        · exact Or.inl h'
        · exact Or.inr (List.mem_cons_of_mem z h')

theorem mem_sortDesc {y : List Char × Nat} {l : List (List Char × Nat)}
    (h : y ∈ sortDesc l) : y ∈ l := by
  induction l with
  | nil => simp [sortDesc] at h
  | cons x t ih =>
    rw [sortDesc] at h
    rcases mem_insDesc h with h' | h'
    · exact h' ▸ List.mem_cons_self x t
    · exact List.mem_cons_of_mem x (ih h')

/-- Claim C5: every pattern selected for substitution by
`compress_patterns` satisfies `len(pattern) * (count - 1) > len(pattern) + 10`,
where `count` is the occurrence count recorded in the pattern table before
any substitution is performed. -/
theorem savings_threshold_selected (tbl : List (List Char × Nat))
    (p : List Char) (c : Nat) (h : (p, c) ∈ selectedPatterns tbl) :
    (p.length : Int) * ((c : Int) - 1) > (p.length : Int) + 10 := by
  have h1 : (p, c) ∈ sortDesc (tbl.filter saves) := List.mem_of_mem_take h
  have h2 : (p, c) ∈ tbl.filter saves := mem_sortDesc h1
  have h3 := List.of_mem_filter h2
  simpa [saves] using h3

/-- Witness for C5 on a one-entry table whose pattern has length 20 and
count 3. -/
theorem savings_threshold_selected_witness :
    ((List.replicate 20 'a', 3) ∈ selectedPatterns [(List.replicate 20 'a', 3)]) ∧
    ((List.replicate 20 'a').length : Int) * ((3 : Int) - 1) >
      ((List.replicate 20 'a').length : Int) + 10 :=
  ⟨by decide,
    savings_threshold_selected [(List.replicate 20 'a', 3)] (List.replicate 20 'a') 3 (by decide)⟩

theorem headerEntries_length (ps : List (List Char)) (i : Nat) :
    (headerEntries ps i).length = ps.length := by
  induction ps generalizing i with
  | nil => rfl
  | cons p t ih => rw [headerEntries]; simp [ih]

/-- Claim C6: for every pattern table, the dictionary header of the
artifact produced by `compress_patterns` contains at most 30
(marker, pattern) entries. -/
theorem dictionary_bounded (tbl : List (List Char × Nat)) :
    (headerEntries ((selectedPatterns tbl).map Prod.fst) 0).length ≤ 30 := by
  rw [headerEntries_length, List.length_map, selectedPatterns, List.length_take]
  exact Nat.min_le_left _ _

/-- Claim C7: for every input string and every parse outcome,
`compress_with_ast` returns its input unchanged: the try-body always
signals an exception (a `SyntaxError` from `ast.parse`, or the `NameError`
on the unresolved name `IdentifierShortener`), the catch-all handler
swallows it, and no exception propagates to the caller. -/
theorem compress_with_ast_fail_open (parseOk : Bool) (code : List Char) :
    compress_with_ast parseOk code = code := by
  cases parseOk <;> rfl

/-- Claim C8: `decompress_code` returns any input that does not start with
the header prefix `# dict:` unchanged; in this embedding it is a total
function, so no exception is possible. -/
theorem decompress_noop_no_header (x : List Char)
    (h : ¬ ("# dict:".toList <+: x)) : decompress_code x = x := by
  unfold decompress_code
  rw [if_neg]
  intro hb
  rw [headerOkB, Bool.and_eq_true, List.isPrefixOf_iff_prefix] at hb
  exact h hb.1

/-- Witness for C8 on the spec's own example input. -/
theorem decompress_noop_no_header_witness :
    ¬ ("# dict:".toList <+: "plain text with no header".toList) ∧
    decompress_code "plain text with no header".toList = "plain text with no header".toList :=
  ⟨by decide, decompress_noop_no_header _ (by decide)⟩

/-! ### The compression report -/

theorem ceil_div_four (n : Nat) : (⌈(n : ℚ) / 4⌉ : Int) = ((n + 3) / 4 : Nat) := by
  set k : Nat := (n + 3) / 4 with hk
  have hk1 : 4 * k ≤ n + 3 := by omega
  have hk2 : n ≤ 4 * k := by omega
  have q1 : (4 * k : ℚ) ≤ (n : ℚ) + 3 := by exact_mod_cast hk1
  have q2 : (n : ℚ) ≤ 4 * k := by exact_mod_cast hk2
  rw [Int.ceil_eq_iff]
  constructor
  · rw [lt_div_iff₀ (by norm_num : (0 : ℚ) < 4)]
    push_cast
    linarith
  · rw [div_le_iff₀ (by norm_num : (0 : ℚ) < 4)]
    push_cast
    linarith

/-- Claim C9: for every pair of strings, `get_compression_report` computes
`ratio = compacted_length / original_length * 100`, yielding 100 when the
original length is 0, and estimates the token count of each side as
`ceil(characters / 4)` (computed here in closed form); the report is total
by construction, so it never fails. -/
theorem compression_report_correct (original compressed : List Char) :
    (get_compression_report original compressed).ratePct =
      (if original.length = 0 then 100
       else (compressed.length : ℚ) / (original.length : ℚ) * 100) ∧
    (get_compression_report original compressed).original_tokens =
      ((original.length + 3) / 4 : Nat) ∧
    (get_compression_report original compressed).compressed_tokens =
      ((compressed.length + 3) / 4 : Nat) := by
  refine ⟨?_, ceil_div_four _, ceil_div_four _⟩
  show ratioQ original.length compressed.length = _
  rw [ratioQ]
  rcases Nat.eq_zero_or_pos original.length with h | h
  · rw [if_neg (by omega), if_pos h]
  · rw [if_pos h, if_neg (by omega)]

/-! ### The pattern table as a Python dict -/

theorem alookup_map_set {m : List (List Char × Nat)} {k : List Char} {v : Nat}
    (hs : (alookup m k).isSome) :
    alookup (m.map fun kv => if kv.1 = k then (k, v) else kv) k = some v := by
  induction m with
  | nil => simp [alookup] at hs
  | cons kv t ih =>
    obtain ⟨k', w⟩ := kv
    simp only [List.map_cons]
    by_cases h : k' = k
    · subst h
      rw [if_pos rfl]
      rw [alookup, if_pos rfl]
    · rw [if_neg h]
      rw [alookup, if_neg h] at hs
      rw [alookup, if_neg h]
      exact ih hs

theorem alookup_map_set_ne {m : List (List Char × Nat)} {q k : List Char} {v : Nat}
    (hne : q ≠ k) :
    alookup (m.map fun kv => if kv.1 = k then (k, v) else kv) q = alookup m q := by
  induction m with
  | nil => rfl
  | cons kv t ih =>
    obtain ⟨k', w⟩ := kv
    simp only [List.map_cons]
    by_cases h : k' = k
    · subst h
      rw [if_pos rfl]
      rw [alookup, alookup, if_neg (fun hx => hne hx.symm), if_neg (fun hx => hne hx.symm)]
      exact ih
    · rw [if_neg h]
      rw [alookup, alookup]
      split
      · rfl
      · exact ih

theorem alookup_append_single {m : List (List Char × Nat)} {k : List Char} {v : Nat}
    (hn : ¬ (alookup m k).isSome) :
    alookup (m ++ [(k, v)]) k = some v := by
  induction m with
  | nil => simp [alookup]
  | cons kv t ih =>
    obtain ⟨k', w⟩ := kv
    by_cases h : k' = k
    · rw [alookup, if_pos h] at hn
      simp at hn
    · rw [alookup, if_neg h] at hn
      rw [List.cons_append, alookup, if_neg h]
      exact ih hn

theorem alookup_append_single_ne {m : List (List Char × Nat)} {q k : List Char} {v : Nat}
    (hne : q ≠ k) :
    alookup (m ++ [(k, v)]) q = alookup m q := by
  induction m with
  | nil =>
    simp only [List.nil_append, alookup]
    rw [if_neg (fun hx => hne hx.symm)]
  | cons kv t ih =>
    obtain ⟨k', w⟩ := kv
    rw [List.cons_append, alookup, alookup]
    split
    · rfl
    · exact ih

theorem alookup_dinsert_self (m : List (List Char × Nat)) (k : List Char) (v : Nat) :
    alookup (dinsert m k v) k = some v := by
  rw [dinsert]
  split
  · exact alookup_map_set (by assumption)
  · exact alookup_append_single (by assumption)

theorem alookup_dinsert_ne {q k : List Char} (m : List (List Char × Nat)) (v : Nat)
    (hne : q ≠ k) : alookup (dinsert m k v) q = alookup m q := by
  rw [dinsert]
  split
  · exact alookup_map_set_ne hne
  · exact alookup_append_single_ne hne

theorem step_lookup (code : List Char) (acc : List (List Char × Nat)) (p q : List Char) :
    alookup
      (if hasAlpha p then
        if 1 < occCount code p then dinsert acc p (occCount code p) else acc
      else acc) q =
    if q = p ∧ hasAlpha p = true ∧ 1 < occCount code p then some (occCount code p)
    else alookup acc q := by
  by_cases ha : hasAlpha p
  · rw [if_pos ha]
    by_cases hc : 1 < occCount code p
    · rw [if_pos hc]
      by_cases hqp : q = p
      · subst hqp
        rw [alookup_dinsert_self, if_pos ⟨rfl, ha, hc⟩]
      · rw [alookup_dinsert_ne _ _ hqp, if_neg (fun hx => hqp hx.1)]
    · rw [if_neg hc, if_neg (fun hx => hc hx.2.2)]
  · rw [if_neg ha, if_neg (fun hx => ha hx.2.1)]

theorem fold_lookup (code : List Char) (cs : List (List Char))
    (acc : List (List Char × Nat)) (q : List Char) :
    alookup
      (cs.foldl
        (fun tbl p =>
          if hasAlpha p then
            if 1 < occCount code p then dinsert tbl p (occCount code p) else tbl
          else tbl)
        acc) q =
      if q ∈ cs ∧ hasAlpha q = true ∧ 1 < occCount code q then some (occCount code q)
      else alookup acc q := by
  induction cs generalizing acc with
  | nil => simp
  | cons p cs ih =>
    rw [List.foldl_cons, ih, step_lookup]
    by_cases h1 : q ∈ cs ∧ hasAlpha q = true ∧ 1 < occCount code q
    · rw [if_pos h1, if_pos ⟨List.mem_cons_of_mem p h1.1, h1.2⟩]
    · rw [if_neg h1]
      by_cases h2 : q = p ∧ hasAlpha p = true ∧ 1 < occCount code p
      · obtain ⟨hqp, hA, hC⟩ := h2
        subst hqp
        rw [if_pos ⟨rfl, hA, hC⟩, if_pos ⟨List.mem_cons_self q cs, hA, hC⟩]
      · rw [if_neg h2, if_neg (fun hx => ?_)]
        rcases List.mem_cons.mp hx.1 with h | h
        · exact h2 ⟨h, h ▸ hx.2⟩
        · exact h1 ⟨h, hx.2⟩

theorem takeWhile_range'_le (n : Nat) : ∀ (k a : Nat),
    (List.range' a k).takeWhile (fun len => decide (len ≤ n)) =
    (List.range' a k).filter (fun len => decide (len ≤ n)) := by
  intro k
  induction k with
  | zero => intro a; rfl
  | succ m ih =>
    intro a
    rw [List.range'_succ]
    by_cases h : a ≤ n
    · rw [List.takeWhile_cons, List.filter_cons]
      rw [if_pos (decide_eq_true h), if_pos (decide_eq_true h)]
      rw [ih]
    · rw [List.takeWhile_cons, List.filter_cons]
      rw [if_neg (by simpa using h), if_neg (by simpa using h)]
      symm
      rw [List.filter_eq_nil_iff]
      intro b hb
      rw [List.mem_range'_1] at hb
      simp only [decide_eq_true_eq]
      omega

theorem sliceAt_length {code : List Char} {i len : Nat} (h : i + len ≤ code.length) :
    (sliceAt code i len).length = len := by
  rw [sliceAt, List.length_take, List.length_drop]
  omega

theorem mem_cands {code p : List Char} :
    p ∈ cands code ↔
      20 ≤ p.length ∧ p.length ≤ 99 ∧ p.length ≤ code.length ∧
      ∃ i, i + p.length ≤ code.length ∧ sliceAt code i p.length = p := by
  rw [cands, takeWhile_range'_le]
  constructor
  · intro h
    rw [List.mem_flatMap] at h
    obtain ⟨len, hlen, hp⟩ := h
    rw [List.mem_filter] at hlen
    obtain ⟨hr, hle⟩ := hlen
    rw [List.mem_range'_1] at hr
    have hle' : len ≤ code.length := of_decide_eq_true hle
    rw [List.mem_map] at hp
    obtain ⟨i, hi, hslice⟩ := hp
    rw [List.mem_range] at hi
    have hilen : i + len ≤ code.length := by omega
    have hplen : p.length = len := hslice ▸ sliceAt_length hilen
    refine ⟨by omega, by omega, by omega, i, by omega, ?_⟩
    rw [hplen]
    exact hslice
  · rintro ⟨h20, h99, hn, i, hi, hs⟩
    rw [List.mem_flatMap]
    refine ⟨p.length, ?_, ?_⟩
    · rw [List.mem_filter, List.mem_range'_1]
      exact ⟨⟨h20, by omega⟩, decide_eq_true hn⟩
    · rw [List.mem_map]
      exact ⟨i, List.mem_range.mpr (by omega), hs⟩

/-- Claim C4: after `detect_common_patterns(code)`, the pattern table maps
exactly those substrings of `code` whose length is between the minimum
threshold 20 and the cap 100 (i.e. lengths 20 to 99, matching
`range(20, 100)`, and never exceeding the text length), that contain at
least one alphabetic character, and that occur more than once (counted by
the repeated forward search `occCount`), each to its occurrence count. -/
theorem detect_common_patterns_characterization (code p : List Char) (c : Nat) :
    alookup (detect_common_patterns code) p = some c ↔
      20 ≤ p.length ∧ p.length ≤ 99 ∧ p.length ≤ code.length ∧
      (∃ i, i + p.length ≤ code.length ∧ sliceAt code i p.length = p) ∧
      hasAlpha p = true ∧ 1 < c ∧ c = occCount code p := by
  rw [detect_common_patterns, fold_lookup]
  split
  · rename_i hcond
    obtain ⟨hmem, hA, hC⟩ := hcond
    rw [mem_cands] at hmem
    constructor
    · intro hsome
      have hoc : occCount code p = c := Option.some.inj hsome
      exact ⟨hmem.1, hmem.2.1, hmem.2.2.1, hmem.2.2.2, hA, hoc ▸ hC, hoc.symm⟩
    · rintro ⟨_, _, _, _, _, _, hc⟩
      rw [hc]
  · rename_i hcond
    simp only [alookup]
    constructor
    · intro h
      exact absurd h (by simp)
    · rintro ⟨h1, h2, h3, h4, h5, h6, h7⟩
      exact absurd ⟨mem_cands.mpr ⟨h1, h2, h3, h4⟩, h5, h7 ▸ h6⟩ hcond

/-! ### Equations for `pyReplace` at canonical fuel -/

theorem replF_succ (p r : List Char) (f : Nat) (s : List Char) :
    replF p r (f + 1) s =
      if p = [] then s
      else if p.isPrefixOf s then r ++ replF p r f (s.drop p.length)
      else
        match s with
        | [] => []
        | c :: t => c :: replF p r f t := rfl

theorem replF_nil (p r : List Char) (hp : p ≠ []) : ∀ f, replF p r f [] = [] := by
  intro f
  cases f with
  | zero => rfl
  | succ g =>
    rw [replF_succ, if_neg hp, if_neg ?hpre]
    case hpre =>
      cases p with
      | nil => exact absurd rfl hp
      | cons a as => simp [List.isPrefixOf]

theorem replF_congr {p : List Char} (r : List Char) (hp : p ≠ []) :
    ∀ f : Nat, ∀ g s, s.length ≤ f → s.length ≤ g → replF p r f s = replF p r g s := by
  have hl : 1 ≤ p.length := List.length_pos.mpr hp
  intro f
  induction f with
  | zero =>
    intro g s h1 _
    have : s = [] := List.eq_nil_of_length_eq_zero (by omega)
    subst this
    rw [replF_nil p r hp, replF_nil p r hp]
  | succ f ih =>
    intro g s h1 h2
    cases s with
    | nil => rw [replF_nil p r hp, replF_nil p r hp]
    | cons c t =>
      cases g with
      | zero => simp at h2
      | succ g =>
        have hcl : (c :: t).length = t.length + 1 := rfl
        rw [hcl] at h1 h2
        rw [replF_succ, replF_succ, if_neg hp, if_neg hp]
        by_cases hpre : p.isPrefixOf (c :: t)
        · rw [if_pos hpre, if_pos hpre]
          have hd : ((c :: t).drop p.length).length ≤ f := by
            rw [List.length_drop, hcl]
            omega
          have hd2 : ((c :: t).drop p.length).length ≤ g := by
            rw [List.length_drop, hcl]
            omega
          rw [ih g _ hd hd2]
        · rw [if_neg hpre, if_neg hpre]
          show c :: replF p r f t = c :: replF p r g t
          rw [ih g t (by omega) (by omega)]

theorem pyReplace_nil (p r : List Char) (hp : p ≠ []) : pyReplace [] p r = [] := by
  rw [pyReplace, if_neg hp]
  exact replF_nil p r hp 0

theorem pyReplace_pos {p : List Char} (s r : List Char) (hp : p ≠ []) (hpre : p <+: s) :
    pyReplace s p r = r ++ pyReplace (s.drop p.length) p r := by
  have hl : 1 ≤ p.length := List.length_pos.mpr hp
  have hsl : p.length ≤ s.length := hpre.length_le
  rw [pyReplace, if_neg hp, pyReplace, if_neg hp]
  cases hs : s with
  | nil =>
    subst hs
    exact absurd (List.prefix_nil.mp hpre) hp
  | cons c t =>
    rw [← hs]
    have hfuel : s.length = (s.length - 1) + 1 := by
      subst hs
      simp
    rw [hfuel, replF_succ, if_neg hp, if_pos (List.isPrefixOf_iff_prefix.mpr hpre)]
    congr 1
    apply replF_congr r hp
    · rw [List.length_drop]
      omega
    · rw [List.length_drop]

theorem pyReplace_neg {p : List Char} (r : List Char) (c : Char) (t : List Char)
    (hp : p ≠ []) (hpre : ¬ (p <+: (c :: t))) :
    pyReplace (c :: t) p r = c :: pyReplace t p r := by
  rw [pyReplace, if_neg hp, pyReplace, if_neg hp]
  have hcl : (c :: t).length = t.length + 1 := rfl
  rw [hcl, replF_succ, if_neg hp,
    if_neg (fun hb => hpre (List.isPrefixOf_iff_prefix.mp hb))]

/-- Scanning skips a whole segment inside which no match can start. -/
theorem skipSeg {p r : List Char} (hp : p ≠ []) :
    ∀ (u v : List Char), (∀ q, q < u.length → ¬ (p <+: (u.drop q ++ v))) →
    pyReplace (u ++ v) p r = u ++ pyReplace v p r := by
  intro u
  induction u with
  | nil => intro v _; rfl
  | cons d u ih =>
    intro v h
    rw [List.cons_append, pyReplace_neg r d (u ++ v) hp (h 0 (by simp))]
    rw [ih v fun q hq => by
      have := h (q + 1) (by simp; omega)
      simpa using this]
    rw [List.cons_append]

/-! ### Equations for the header-stripping scan -/

theorem dropWhileLenLe (pb : Char → Bool) (l : List Char) :
    (l.dropWhile pb).length ≤ l.length := by
  induction l with
  | nil => simp
  | cons c t ih =>
    rw [List.dropWhile]
    split
    · simp
      omega
    · simp

theorem headerOkB_nil : headerOkB [] = false := by decide

theorem stripF_succ (f : Nat) (s : List Char) :
    stripF (f + 1) s =
      if headerOkB s then stripF f (((s.drop 7).dropWhile fun c => c != '\n').drop 1)
      else
        match s with
        | [] => []
        | c :: t => c :: stripF f t := rfl

theorem stripF_nil : ∀ f, stripF f [] = [] := by
  intro f
  cases f with
  | zero => rfl
  | succ g => rw [stripF_succ, if_neg (by rw [headerOkB_nil]; simp)]

theorem stripSkipLen (s : List Char) :
    (((s.drop 7).dropWhile fun c => c != '\n').drop 1).length ≤ s.length - 7 := by
  rw [List.length_drop]
  have h1 := dropWhileLenLe (fun c => c != '\n') (s.drop 7)
  rw [List.length_drop] at h1
  omega

theorem stripF_congr : ∀ f : Nat, ∀ g s, s.length ≤ f → s.length ≤ g →
    stripF f s = stripF g s := by
  intro f
  induction f with
  | zero =>
    intro g s h1 _
    have : s = [] := List.eq_nil_of_length_eq_zero (by omega)
    subst this
    rw [stripF_nil, stripF_nil]
  | succ f ih =>
    intro g s h1 h2
    cases s with
    | nil => rw [stripF_nil, stripF_nil]
    | cons c t =>
      cases g with
      | zero => simp at h2
      | succ g =>
        have hcl : (c :: t).length = t.length + 1 := rfl
        rw [hcl] at h1 h2
        rw [stripF_succ, stripF_succ]
        by_cases hok : headerOkB (c :: t)
        · rw [if_pos hok, if_pos hok]
          have hsk := stripSkipLen (c :: t)
          rw [hcl] at hsk
          exact ih g _ (by omega) (by omega)
        · rw [if_neg hok, if_neg hok]
          show c :: stripF f t = c :: stripF g t
          rw [ih g t (by omega) (by omega)]

theorem stripAll_pos {s : List Char} (h : headerOkB s = true) :
    stripAll s = stripAll (((s.drop 7).dropWhile fun c => c != '\n').drop 1) := by
  cases s with
  | nil => rw [headerOkB_nil] at h; simp at h
  | cons c t =>
    rw [stripAll, stripAll]
    have hcl : (c :: t).length = t.length + 1 := rfl
    rw [hcl, stripF_succ, if_pos h]
    apply stripF_congr
    · have hsk := stripSkipLen (c :: t)
      rw [hcl] at hsk
      omega
    · rfl

theorem stripAll_neg {c : Char} {t : List Char} (h : headerOkB (c :: t) = false) :
    stripAll (c :: t) = c :: stripAll t := by
  rw [stripAll, stripAll]
  have hcl : (c :: t).length = t.length + 1 := rfl
  rw [hcl, stripF_succ, if_neg (by rw [h]; simp)]

/-! ### Header stripping over structured text -/

theorem containsOfMem {a : Char} {l : List Char} (h : a ∈ l) : l.contains a = true := by
  induction l with
  | nil => simp at h
  | cons c t ih =>
    rcases List.mem_cons.mp h with h' | h'
    · subst h'
      simp [List.contains_cons]
    · simp [List.contains_cons, ih h']
      right
      exact h'

theorem containsFalseOfNotMem {a : Char} {l : List Char} (h : a ∉ l) : l.contains a = false := by
  rcases hb : l.contains a with _ | _
  · rfl
  · rw [List.contains_eq_any_beq] at hb
    rw [List.any_eq_true] at hb
    obtain ⟨x, hx, hbeq⟩ := hb
    rw [beq_iff_eq] at hbeq
    exact absurd (hbeq ▸ hx) h

theorem headerPrefixSelf (y : List Char) :
    "# dict:".toList.isPrefixOf ("# dict:".toList ++ y) = true :=
  List.isPrefixOf_iff_prefix.mpr (List.prefix_append _ y)

theorem drop7Header (y : List Char) : ("# dict:".toList ++ y).drop 7 = y := by
  rw [show (7 : Nat) = ("# dict:".toList).length from rfl, List.drop_left]

theorem headerOkB_header {y : List Char} (hny : '\n' ∈ y) :
    headerOkB ("# dict:".toList ++ y) = true := by
  rw [headerOkB, drop7Header, headerPrefixSelf, containsOfMem hny]
  rfl

theorem headerOkB_cons_ne {c : Char} {t : List Char} (hc : c ≠ '#') :
    headerOkB (c :: t) = false := by
  rw [headerOkB, show "# dict:".toList = '#' :: " dict:".toList from rfl]
  have : ('#' :: " dict:".toList).isPrefixOf (c :: t) = false := by
    simp [List.isPrefixOf, beq_iff_eq]
    intro h
    exact absurd h.symm hc
  rw [this]
  rfl

theorem headerOkB_no_nl {s : List Char} (h : '\n' ∉ s) : headerOkB s = false := by
  rw [headerOkB]
  have : (s.drop 7).contains '\n' = false :=
    containsFalseOfNotMem fun hm => h (List.drop_subset 7 s hm)
  rw [this]
  exact Bool.and_false _

theorem stripAll_seg {u : List Char} (z : List Char) (hu : ∀ c ∈ u, c ≠ '#') :
    stripAll (u ++ z) = u ++ stripAll z := by
  induction u with
  | nil => rfl
  | cons d t ih =>
    rw [List.cons_append, stripAll_neg (headerOkB_cons_ne (hu d (List.mem_cons_self d t)))]
    rw [ih fun c hc => hu c (List.mem_cons_of_mem d hc), List.cons_append]

theorem stripAll_all_ne {w : List Char} (hw : ∀ c ∈ w, c ≠ '#') : stripAll w = w := by
  induction w with
  | nil => rfl
  | cons d t ih =>
    rw [stripAll_neg (headerOkB_cons_ne (hw d (List.mem_cons_self d t)))]
    rw [ih fun c hc => hw c (List.mem_cons_of_mem d hc)]

theorem dropWhileNeStop {x : Char} (u v : List Char) (hu : ∀ c ∈ u, c ≠ x) :
    (u ++ x :: v).dropWhile (fun c => c != x) = x :: v := by
  induction u with
  | nil =>
    rw [List.nil_append, List.dropWhile_cons]
    simp
  | cons d t ih =>
    rw [List.cons_append, List.dropWhile_cons]
    have : (d != x) = true := bne_iff_ne.mpr (hu d (List.mem_cons_self d t))
    rw [this]
    simp only [if_true]
    exact ih fun c hc => hu c (List.mem_cons_of_mem d hc)

theorem stripAll_header (dict body : List Char) (hd : '\n' ∉ dict) :
    stripAll ("# dict:".toList ++ (dict ++ '\n' :: body)) = stripAll body := by
  rw [stripAll_pos (headerOkB_header (by simp))]
  rw [drop7Header, dropWhileNeStop dict body fun c hc hcx => hd (by rw [hcx] at hc; exact hc)]
  rfl

/-- Claim C10: when the input to `decompress_code` begins with a parsable
header line, the header-stripping `re.sub` deletes every substring of the
shape `# dict:` followed by characters up to a newline, anywhere in the
text, not only the leading header line; body content of that shape is
removed before markers are expanded. -/
theorem strip_removes_body_headers (u v w : List Char)
    (hu : ∀ c ∈ u, c ≠ '#') (hv : '\n' ∉ v) (hw : ∀ c ∈ w, c ≠ '#') :
    decompress_code
        ("# dict:".toList ++ '\n' :: (u ++ ("# dict:".toList ++ (v ++ '\n' :: w)))) =
      u ++ w := by
  have hok : headerOkB
      ("# dict:".toList ++ '\n' :: (u ++ ("# dict:".toList ++ (v ++ '\n' :: w)))) = true :=
    headerOkB_header (List.mem_cons_self _ _)
  have hdict : ((("# dict:".toList ++
      '\n' :: (u ++ ("# dict:".toList ++ (v ++ '\n' :: w)))).drop 7).takeWhile
        fun c => c != '\n') = [] := by
    rw [drop7Header, List.takeWhile_cons]
    simp
  have hbody : stripAll
      ("# dict:".toList ++ '\n' :: (u ++ ("# dict:".toList ++ (v ++ '\n' :: w)))) =
      u ++ w := by
    have h1 : "# dict:".toList ++ '\n' :: (u ++ ("# dict:".toList ++ (v ++ '\n' :: w))) =
        "# dict:".toList ++ ([] ++ '\n' :: (u ++ ("# dict:".toList ++ (v ++ '\n' :: w)))) := by
      simp
    rw [h1, stripAll_header _ _ (by simp)]
    rw [stripAll_seg _ hu, stripAll_header v w hv, stripAll_all_ne hw]
  simp only [decompress_code, hok, if_true]
  rw [hdict, hbody]
  rfl

/-- Witness for C10 on concrete segments. -/
theorem strip_removes_body_headers_witness :
    (∀ c ∈ "abc".toList, c ≠ '#') ∧ ('\n' ∉ "xyz".toList) ∧
    (∀ c ∈ "rest".toList, c ≠ '#') ∧
    decompress_code
        ("# dict:".toList ++
          '\n' :: ("abc".toList ++ ("# dict:".toList ++ ("xyz".toList ++ '\n' :: "rest".toList)))) =
      "abc".toList ++ "rest".toList :=
  ⟨by decide, by decide, by decide,
    strip_removes_body_headers _ _ _ (by decide) (by decide) (by decide)⟩

/-! ### A block view of substituted text

The body produced by the substitution loop is, by construction, a
concatenation of original characters and whole marker strings.  `Blk`
makes that structure explicit; `flatB` forgets it.  These are proof
artefacts only: the program functions above never mention them. -/

/-- A digit character. -/
def isDigCh (c : Char) : Prop := '0' ≤ c ∧ c ≤ '9'

instance (c : Char) : Decidable (isDigCh c) := by
  unfold isDigCh
  infer_instance

/-- A character that can appear in a round-trip-safe body: not a hash and
not a digit (so it can never take part in a marker occurrence). -/
def okCh (c : Char) : Prop := c ≠ '#' ∧ ¬ isDigCh c

inductive Blk where
  | chr : Char → Blk
  | mark : Nat → Blk
  deriving DecidableEq

/-- The text of one block. -/
def Blk.flat : Blk → List Char
  | .chr c => [c]
  | .mark i => marker i

/-- The text of a block list. -/
def flatB (bs : List Blk) : List Char := bs.flatMap Blk.flat

/-- Every character block holds a hash-free, digit-free character. -/
def chrOk (bs : List Blk) : Prop := ∀ b ∈ bs, ∀ c, b = Blk.chr c → okCh c

/-- Every marker block has index in `[lo, hi)`. -/
def marksIn (lo hi : Nat) (bs : List Blk) : Prop :=
  ∀ b ∈ bs, ∀ j, b = Blk.mark j → lo ≤ j ∧ j < hi

theorem flatB_nil : flatB [] = [] := rfl

theorem flatB_cons (b : Blk) (t : List Blk) : flatB (b :: t) = b.flat ++ flatB t := by
  simp [flatB]

theorem flatB_append (a b : List Blk) : flatB (a ++ b) = flatB a ++ flatB b := by
  simp [flatB]

theorem flat_chrMap (p : List Char) : flatB (p.map Blk.chr) = p := by
  induction p with
  | nil => rfl
  | cons c t ih => simp [flatB, Blk.flat] at ih ⊢; exact ih

/-! ### Characters of a marker -/

theorem digCh_digit (n : Nat) : isDigCh (digCh n) := by
  have h : n % 10 < 10 := Nat.mod_lt _ (by norm_num)
  rw [digCh]
  set m := n % 10 with hm
  interval_cases m <;> decide

theorem digsF_digits : ∀ f n, ∀ c ∈ digsF f n, isDigCh c := by
  intro f
  induction f with
  | zero => intro n c hc; simp [digsF] at hc
  | succ f ih =>
    intro n c hc
    rw [digsF] at hc
    split at hc
    · rw [List.mem_singleton] at hc
      exact hc ▸ digCh_digit n
    · rcases List.mem_append.mp hc with h | h
      · exact ih _ c h
      · rw [List.mem_singleton] at h
        exact h ▸ digCh_digit (n % 10)

theorem natDigs_digits (n : Nat) : ∀ c ∈ natDigs n, isDigCh c :=
  digsF_digits (n + 1) n

theorem natDigs_ne_nil (n : Nat) : natDigs n ≠ [] := by
  rw [natDigs, digsF]
  split
  · simp
  · simp

theorem marker_chars {i : Nat} {c : Char} (h : c ∈ marker i) : c = '#' ∨ isDigCh c := by
  rw [marker] at h
  rcases List.mem_cons.mp h with h | h
  · exact Or.inl h
  rcases List.mem_cons.mp h with h | h
  · exact Or.inl h
  rcases List.mem_append.mp h with h | h
  · exact Or.inr (natDigs_digits i c h)
  · rcases List.mem_cons.mp h with h | h
    · exact Or.inl h
    · rw [List.mem_singleton] at h
      exact Or.inl h

theorem okCh_not_in_marker {c : Char} (hc : okCh c) {i : Nat} (h : c ∈ marker i) : False := by
  rcases marker_chars h with h' | h'
  · exact hc.1 h'
  · exact hc.2 h'

theorem marker_ne_nil (i : Nat) : marker i ≠ [] := by
  rw [marker]
  simp

theorem marker_cons (i : Nat) : marker i = '#' :: '#' :: (natDigs i ++ ['#', '#']) := rfl

/-! ### Prefix comparability and distinctness of markers -/

theorem pfxComparable {α : Type} : ∀ (l₃ l₁ l₂ : List α),
    l₁ <+: l₃ → l₂ <+: l₃ → l₁ <+: l₂ ∨ l₂ <+: l₁ := by
  intro l₃
  induction l₃ with
  | nil =>
    intro l₁ l₂ h1 h2
    rw [List.prefix_nil] at h1 h2
    subst h1
    subst h2
    exact Or.inl List.nil_prefix
  | cons c t ih =>
    intro l₁ l₂ h1 h2
    cases l₁ with
    | nil => exact Or.inl List.nil_prefix
    | cons a t₁ =>
      cases l₂ with
      | nil => exact Or.inr List.nil_prefix
      | cons b t₂ =>
        rw [List.cons_prefix_cons] at h1 h2
        rcases ih t₁ t₂ h1.2 h2.2 with h | h
        · exact Or.inl (List.cons_prefix_cons.mpr ⟨h1.1.trans h2.1.symm, h⟩)
        · exact Or.inr (List.cons_prefix_cons.mpr ⟨h2.1.trans h1.1.symm, h⟩)

theorem markerNotPfx : ∀ i, i < 30 → ∀ j, j < 30 → i ≠ j → ¬ (marker i <+: marker j) := by
  decide

theorem noMarkerPfxOfMarker {i j : Nat} (hi : i < 30) (hj : j < 30) (hij : i ≠ j)
    (v : List Char) : ¬ (marker i <+: marker j ++ v) := by
  intro h
  rcases pfxComparable (marker j ++ v) (marker i) (marker j) h (List.prefix_append _ v) with
    h' | h'
  · exact markerNotPfx i hi j hj hij h'
  · exact markerNotPfx j hj i hi (Ne.symm hij) h'

/-! ### The compression direction on blocks -/

theorem prefix_flat_iff : ∀ (p : List Char), (∀ c ∈ p, okCh c) → ∀ bs : List Blk,
    (p <+: flatB bs) ↔ (p.map Blk.chr <+: bs) := by
  intro p
  induction p with
  | nil =>
    intro _ bs
    simp
  | cons c p' ih =>
    intro hok bs
    have hc : okCh c := hok c (List.mem_cons_self c p')
    have hok' : ∀ x ∈ p', okCh x := fun x hx => hok x (List.mem_cons_of_mem c hx)
    cases bs with
    | nil =>
      rw [flatB_nil]
      simp [List.prefix_nil]
    | cons b t =>
      cases b with
      | chr d =>
        rw [flatB_cons]
        show (c :: p') <+: ([d] ++ flatB t) ↔ _
        rw [List.singleton_append, List.map_cons, List.cons_prefix_cons,
          List.cons_prefix_cons]
        constructor
        · rintro ⟨h1, h2⟩
          exact ⟨by rw [h1], (ih hok' t).mp h2⟩
        · rintro ⟨h1, h2⟩
          exact ⟨Blk.chr.inj h1, (ih hok' t).mpr h2⟩
      | mark j =>
        rw [flatB_cons]
        show (c :: p') <+: (marker j ++ flatB t) ↔ _
        rw [marker_cons, List.cons_append, List.map_cons]
        constructor
        · intro h
          rw [List.cons_prefix_cons] at h
          exact absurd h.1 hc.1
        · intro h
          rw [List.cons_prefix_cons] at h
          exact absurd h.1 (by simp)

/-- The effect of one `str.replace(pattern, marker)` on the block
structure: runs of character blocks spelling the pattern become a marker
block; nothing else changes.  Proof artefact mirroring `replF`. -/
def replB (p : List Char) (i : Nat) (bs : List Blk) : List Blk :=
  if h : p ≠ [] ∧ (p.map Blk.chr).isPrefixOf bs then
    Blk.mark i :: replB p i (bs.drop p.length)
  else
    match bs with
    | [] => []
    | b :: t => b :: replB p i t
termination_by bs.length
decreasing_by
  · have hpre : (p.map Blk.chr) <+: bs := List.isPrefixOf_iff_prefix.mp h.2
    have h1 : p.length ≤ bs.length := by
      have := hpre.length_le
      simpa using this
    have h0 : 1 ≤ p.length := List.length_pos.mpr h.1
    simp only [List.length_drop]
    omega
  · simp

theorem replB_pos {p : List Char} {bs : List Blk} (i : Nat)
    (h : p ≠ [] ∧ (p.map Blk.chr).isPrefixOf bs) :
    replB p i bs = Blk.mark i :: replB p i (bs.drop p.length) := by
  rw [replB, dif_pos h]

theorem replB_nil (p : List Char) (i : Nat) : replB p i [] = [] := by
  rw [replB, dif_neg]
  rintro ⟨hne, hpre⟩
  cases p with
  | nil => exact hne rfl
  | cons c t => simp [List.isPrefixOf] at hpre

theorem replB_cons_neg {p : List Char} {b : Blk} {t : List Blk} (i : Nat)
    (h : ¬ (p ≠ [] ∧ (p.map Blk.chr).isPrefixOf (b :: t))) :
    replB p i (b :: t) = b :: replB p i t := by
  rw [replB, dif_neg h]

theorem chrPrefix_flat {p : List Char} {bs : List Blk} (h : (p.map Blk.chr) <+: bs) :
    flatB bs = p ++ flatB (bs.drop p.length) := by
  obtain ⟨t, ht⟩ := h
  rw [← ht, flatB_append, flat_chrMap]
  rw [show p.length = (p.map Blk.chr).length from (List.length_map _ _).symm, List.drop_left]

theorem noMatchInMarker {c : Char} (hc : okCh c) (p' : List Char) (j : Nat) (v : List Char) :
    ∀ q, q < (marker j).length → ¬ ((c :: p') <+: ((marker j).drop q ++ v)) := by
  intro q hq hpre
  rw [List.drop_eq_getElem_cons hq, List.cons_append, List.cons_prefix_cons] at hpre
  have hm : (marker j)[q] ∈ marker j := List.getElem_mem hq
  rcases marker_chars hm with h | h
  · exact hc.1 (by rw [hpre.1]; exact h)
  · exact hc.2 (by rw [hpre.1]; exact h)

theorem flat_replB {p : List Char} (i : Nat) (hne : p ≠ []) (hok : ∀ c ∈ p, okCh c) :
    ∀ n : Nat, ∀ bs : List Blk, bs.length ≤ n →
    pyReplace (flatB bs) p (marker i) = flatB (replB p i bs) := by
  intro n
  induction n with
  | zero =>
    intro bs hlen
    have : bs = [] := List.eq_nil_of_length_eq_zero (by omega)
    subst this
    rw [flatB_nil, pyReplace_nil p _ hne, replB_nil, flatB_nil]
  | succ n ih =>
    intro bs hlen
    by_cases hcond : p ≠ [] ∧ (p.map Blk.chr).isPrefixOf bs
    · have hpre : p.map Blk.chr <+: bs := List.isPrefixOf_iff_prefix.mp hcond.2
      have hflat : flatB bs = p ++ flatB (bs.drop p.length) := chrPrefix_flat hpre
      have hpfx : p <+: flatB bs := by
        rw [hflat]
        exact List.prefix_append p _
      rw [replB_pos i hcond, flatB_cons, pyReplace_pos (flatB bs) (marker i) hne hpfx]
      have hdrop : (flatB bs).drop p.length = flatB (bs.drop p.length) := by
        rw [hflat]
        rw [show p.length = p.length from rfl]
        exact List.drop_left p _
      rw [hdrop]
      show marker i ++ _ = (Blk.mark i).flat ++ _
      rw [show (Blk.mark i).flat = marker i from rfl]
      congr 1
      apply ih
      have hp1 : 1 ≤ p.length := List.length_pos.mpr hne
      have hp2 : p.length ≤ bs.length := by
        have := hpre.length_le
        simpa using this
      rw [List.length_drop]
      omega
    · cases bs with
      | nil => rw [flatB_nil, pyReplace_nil p _ hne, replB_nil, flatB_nil]
      | cons b t =>
        have hnm : ¬ (p.map Blk.chr).isPrefixOf (b :: t) := fun hx => hcond ⟨hne, hx⟩
        have hnp : ¬ (p <+: flatB (b :: t)) := fun hx =>
          hnm (List.isPrefixOf_iff_prefix.mpr ((prefix_flat_iff p hok _).mp hx))
        have hlt : t.length ≤ n := by
          have : (b :: t).length = t.length + 1 := rfl
          omega
        rw [replB_cons_neg i hcond, flatB_cons, flatB_cons]
        cases b with
        | chr d =>
          rw [show (Blk.chr d).flat = [d] from rfl]
          rw [List.singleton_append, List.singleton_append]
          rw [pyReplace_neg (marker i) d (flatB t) hne (by
            rw [flatB_cons, show (Blk.chr d).flat = [d] from rfl,
              List.singleton_append] at hnp
            exact hnp)]
          rw [ih t hlt]
        | mark j =>
          rw [show (Blk.mark j).flat = marker j from rfl]
          obtain ⟨c, p', rfl⟩ : ∃ c p', p = c :: p' := by
            cases p with
            | nil => exact absurd rfl hne
            | cons c p' => exact ⟨c, p', rfl⟩
          have hc : okCh c := hok c (List.mem_cons_self c p')
          rw [skipSeg hne (marker j) (flatB t) (noMatchInMarker hc p' j (flatB t))]
          rw [ih t hlt]

/-- Expansion of a block list through an assignment `ν` of pattern texts
to marker indices: the inverse reading of the block structure. -/
def expandF (nu : Nat → List Char) (bs : List Blk) : List Char :=
  bs.flatMap fun b =>
    match b with
    | .chr c => [c]
    | .mark j => nu j

theorem expandF_nil (nu : Nat → List Char) : expandF nu [] = [] := rfl

theorem expandF_cons (nu : Nat → List Char) (b : Blk) (t : List Blk) :
    expandF nu (b :: t) =
      (match b with | .chr c => [c] | .mark j => nu j) ++ expandF nu t := by
  simp [expandF]

theorem expandF_append (nu : Nat → List Char) (a b : List Blk) :
    expandF nu (a ++ b) = expandF nu a ++ expandF nu b := by
  simp [expandF]

theorem expandF_chrMap (nu : Nat → List Char) (p : List Char) :
    expandF nu (p.map Blk.chr) = p := by
  induction p with
  | nil => rfl
  | cons c t ih => simp [expandF] at ih ⊢; exact ih

theorem expandF_replB (nu : Nat → List Char) {p : List Char} {i : Nat} (hv : nu i = p) :
    ∀ n : Nat, ∀ bs : List Blk, bs.length ≤ n →
    expandF nu (replB p i bs) = expandF nu bs := by
  intro n
  induction n with
  | zero =>
    intro bs hlen
    have : bs = [] := List.eq_nil_of_length_eq_zero (by omega)
    subst this
    rw [replB_nil]
  | succ n ih =>
    intro bs hlen
    by_cases hcond : p ≠ [] ∧ (p.map Blk.chr).isPrefixOf bs
    · have hpre : p.map Blk.chr <+: bs := List.isPrefixOf_iff_prefix.mp hcond.2
      obtain ⟨rest, hr⟩ := hpre
      have hp1 : 1 ≤ p.length := List.length_pos.mpr hcond.1
      have hdrop : bs.drop p.length = rest := by
        rw [← hr, show p.length = (p.map Blk.chr).length from (List.length_map _ _).symm,
          List.drop_left]
      rw [replB_pos i hcond, expandF_cons, hdrop, ← hr, expandF_append, expandF_chrMap]
      have hrl : rest.length ≤ n := by
        have : (p.map Blk.chr ++ rest).length = p.length + rest.length := by simp
        rw [← hr] at hlen
        omega
      rw [ih rest hrl]
      show nu i ++ _ = _
      rw [hv]
    · cases bs with
      | nil => rw [replB_nil]
      | cons b t =>
        have hlt : t.length ≤ n := by
          have : (b :: t).length = t.length + 1 := rfl
          omega
        rw [replB_cons_neg i hcond, expandF_cons, expandF_cons, ih t hlt]

theorem replB_blocks {p : List Char} {i : Nat} : ∀ n : Nat, ∀ bs : List Blk,
    bs.length ≤ n → ∀ b ∈ replB p i bs, b = Blk.mark i ∨ b ∈ bs := by
  intro n
  induction n with
  | zero =>
    intro bs hlen b hb
    have : bs = [] := List.eq_nil_of_length_eq_zero (by omega)
    subst this
    rw [replB_nil] at hb
    simp at hb
  | succ n ih =>
    intro bs hlen b hb
    by_cases hcond : p ≠ [] ∧ (p.map Blk.chr).isPrefixOf bs
    · rw [replB_pos i hcond] at hb
      rcases List.mem_cons.mp hb with h | h
      · exact Or.inl h
      · have hp1 : 1 ≤ p.length := List.length_pos.mpr hcond.1
        have hpre : p.map Blk.chr <+: bs := List.isPrefixOf_iff_prefix.mp hcond.2
        have hbs1 : 1 ≤ bs.length := by
          have h1 := hpre.length_le
          simp at h1
          omega
        rcases ih (bs.drop p.length) (by rw [List.length_drop]; omega) b h with h' | h'
        · exact Or.inl h'
        · exact Or.inr (List.drop_subset _ _ h')
    · cases bs with
      | nil =>
        rw [replB_nil] at hb
        simp at hb
      | cons x t =>
        rw [replB_cons_neg i hcond] at hb
        rcases List.mem_cons.mp hb with h | h
        · exact Or.inr (h ▸ List.mem_cons_self x t)
        · rcases ih t (by
            have : (x :: t).length = t.length + 1 := rfl
            omega) b h with h' | h'
          · exact Or.inl h'
          · exact Or.inr (List.mem_cons_of_mem x h')

/-- The block mirror of the whole substitution loop `applySubs`. -/
def subsBlocks (bs : List Blk) : List (List Char) → Nat → List Blk
  | [], _ => bs
  | p :: ps, i => subsBlocks (replB p i bs) ps (i + 1)

theorem applySubs_flat : ∀ (ps : List (List Char)) (i : Nat) (bs : List Blk),
    (∀ p ∈ ps, p ≠ [] ∧ ∀ c ∈ p, okCh c) →
    applySubs (flatB bs) ps i = flatB (subsBlocks bs ps i) := by
  intro ps
  induction ps with
  | nil => intro i bs _; rfl
  | cons p ps ih =>
    intro i bs hps
    have hp := hps p (List.mem_cons_self p ps)
    rw [applySubs, subsBlocks, flat_replB i hp.1 hp.2 bs.length bs le_rfl]
    exact ih (i + 1) _ fun x hx => hps x (List.mem_cons_of_mem p hx)

theorem subsBlocks_expandF (nu : Nat → List Char) : ∀ (ps : List (List Char)) (i : Nat)
    (bs : List Blk), (∀ k, k < ps.length → nu (i + k) = ps.getD k []) →
    expandF nu (subsBlocks bs ps i) = expandF nu bs := by
  intro ps
  induction ps with
  | nil => intro i bs _; rfl
  | cons p ps ih =>
    intro i bs hnu
    rw [subsBlocks]
    rw [ih (i + 1) _ fun k hk => by
      have := hnu (k + 1) (by simp; omega)
      rw [show i + 1 + k = i + (k + 1) by omega]
      simpa using this]
    exact expandF_replB nu (by simpa using hnu 0 (by simp)) bs.length bs le_rfl

theorem subsBlocks_blocks : ∀ (ps : List (List Char)) (i : Nat) (bs : List Blk),
    ∀ b ∈ subsBlocks bs ps i, (∃ k, k < ps.length ∧ b = Blk.mark (i + k)) ∨ b ∈ bs := by
  intro ps
  induction ps with
  | nil => intro i bs b hb; exact Or.inr hb
  | cons p ps ih =>
    intro i bs b hb
    rw [subsBlocks] at hb
    rcases ih (i + 1) _ b hb with ⟨k, hk, hbk⟩ | h
    · exact Or.inl ⟨k + 1, by simpa using hk, by rw [hbk]; congr 1; omega⟩
    · rcases replB_blocks bs.length bs le_rfl b h with h' | h'
      · exact Or.inl ⟨0, by simp, by simpa using h'⟩
      · exact Or.inr h'

/-! ### The expansion direction: marker occurrences are exactly the
marker blocks -/

theorem marker_length (j : Nat) : (marker j).length = (natDigs j).length + 4 := by
  rw [marker_cons]
  simp

theorem hashNotDig : ¬ isDigCh '#' := by decide

theorem flat_head_shape (t : List Blk) (hc : chrOk t) :
    flatB t = [] ∨ (∃ c rest, okCh c ∧ flatB t = c :: rest) ∨
      (∃ rest, flatB t = '#' :: '#' :: rest) := by
  cases t with
  | nil => exact Or.inl rfl
  | cons b t' =>
    cases b with
    | chr c =>
      refine Or.inr (Or.inl ⟨c, flatB t', hc (Blk.chr c) (List.mem_cons_self _ _) c rfl, ?_⟩)
      rw [flatB_cons]
      rfl
    | mark l =>
      refine Or.inr (Or.inr ⟨(natDigs l ++ ['#', '#']) ++ flatB t', ?_⟩)
      rw [flatB_cons, show (Blk.mark l).flat = marker l from rfl, marker_cons]
      simp

theorem noSpurious {i j : Nat} (hi : i < 30) (hj : j < 30) (hij : i ≠ j)
    {t : List Blk} (hc : chrOk t) :
    ∀ q, q < (marker j).length → ¬ (marker i <+: ((marker j).drop q ++ flatB t)) := by
  intro q hq hpre
  obtain ⟨e, di', hdi⟩ : ∃ e di', natDigs i = e :: di' := by
    cases hd : natDigs i with
    | nil => exact absurd hd (natDigs_ne_nil i)
    | cons e di' => exact ⟨e, di', rfl⟩
  have hedig : isDigCh e := natDigs_digits i e (by rw [hdi]; exact List.mem_cons_self _ _)
  obtain ⟨d, dj', hdj⟩ : ∃ d dj', natDigs j = d :: dj' := by
    cases hd : natDigs j with
    | nil => exact absurd hd (natDigs_ne_nil j)
    | cons d dj' => exact ⟨d, dj', rfl⟩
  have hddig : isDigCh d := natDigs_digits j d (by rw [hdj]; exact List.mem_cons_self _ _)
  have hvs := flat_head_shape t hc
  rcases q with _ | q1
  · exact noMarkerPfxOfMarker hi hj hij (flatB t) hpre
  rcases q1 with _ | q2
  · rw [marker_cons j, List.drop_succ_cons, List.drop_zero] at hpre
    rw [marker_cons i, hdj] at hpre
    rw [List.cons_append, List.cons_prefix_cons] at hpre
    rw [List.cons_append, List.cons_append, List.cons_prefix_cons] at hpre
    exact hashNotDig (hpre.2.1 ▸ hddig)
  · rw [marker_cons j, List.drop_succ_cons, List.drop_succ_cons] at hpre
    rw [marker_length] at hq
    have hq2 : q2 < (natDigs j).length + 2 := by omega
    rcases show q2 < (natDigs j).length ∨ q2 = (natDigs j).length ∨
        q2 = (natDigs j).length + 1 by omega with hcase | hcase | hcase
    · rw [List.drop_append_of_le_length (by omega)] at hpre
      rw [List.drop_eq_getElem_cons hcase] at hpre
      have hgd : isDigCh (natDigs j)[q2] :=
        natDigs_digits j _ (List.getElem_mem hcase)
      rw [marker_cons i, List.cons_append, List.cons_append, List.cons_prefix_cons] at hpre
      exact hashNotDig (hpre.1 ▸ hgd)
    · subst hcase
      rw [show (natDigs j).length = (natDigs j).length + 0 from rfl, List.drop_append] at hpre
      rw [List.drop_zero, marker_cons i] at hpre
      rw [List.cons_append, List.cons_append, List.cons_prefix_cons] at hpre
      obtain ⟨-, hpre⟩ := hpre
      rw [List.cons_prefix_cons] at hpre
      obtain ⟨-, hpre⟩ := hpre
      rw [List.nil_append, hdi, List.cons_append] at hpre
      rcases hvs with hv | ⟨c, rest, hok, hv⟩ | ⟨rest, hv⟩
      · rw [hv] at hpre
        rw [List.prefix_nil] at hpre
        simp at hpre
      · rw [hv] at hpre
        rw [List.cons_prefix_cons] at hpre
        exact hok.2 (hpre.1 ▸ hedig)
      · rw [hv] at hpre
        rw [List.cons_prefix_cons] at hpre
        exact hashNotDig (hpre.1 ▸ hedig)
    · subst hcase
      rw [show (natDigs j).length + 1 = (natDigs j).length + 1 from rfl, List.drop_append] at hpre
      rw [show (['#', '#'] : List Char).drop 1 = ['#'] from rfl, marker_cons i] at hpre
      rw [List.cons_append, List.cons_prefix_cons] at hpre
      obtain ⟨-, hpre⟩ := hpre
      rw [List.nil_append] at hpre
      rcases hvs with hv | ⟨c, rest, hok, hv⟩ | ⟨rest, hv⟩
      · rw [hv] at hpre
        rw [List.prefix_nil] at hpre
        simp at hpre
      · rw [hv] at hpre
        rw [List.cons_prefix_cons] at hpre
        exact hok.1 hpre.1.symm
      · rw [hv] at hpre
        rw [List.cons_prefix_cons] at hpre
        obtain ⟨-, hpre⟩ := hpre
        rw [hdi, List.cons_append, List.cons_prefix_cons] at hpre
        exact hashNotDig (hpre.1 ▸ hedig)

/-- The block mirror of one decompression `str.replace(marker, pattern)`:
exactly the marker blocks of index `i` become character runs. -/
def mkSubst (bs : List Blk) (i : Nat) (p : List Char) : List Blk :=
  bs.flatMap fun b =>
    match b with
    | .chr c => [Blk.chr c]
    | .mark j => if j = i then p.map Blk.chr else [Blk.mark j]

theorem mkSubst_nil (i : Nat) (p : List Char) : mkSubst [] i p = [] := rfl

theorem mkSubst_cons (b : Blk) (t : List Blk) (i : Nat) (p : List Char) :
    mkSubst (b :: t) i p =
      (match b with
        | .chr c => [Blk.chr c]
        | .mark j => if j = i then p.map Blk.chr else [Blk.mark j]) ++ mkSubst t i p := by
  simp [mkSubst]

theorem flat_mkSubst {i : Nat} (hi : i < 30) (p : List Char) :
    ∀ bs : List Blk, chrOk bs → marksIn i 30 bs →
    pyReplace (flatB bs) (marker i) p = flatB (mkSubst bs i p) := by
  intro bs
  induction bs with
  | nil =>
    intro _ _
    rw [flatB_nil, pyReplace_nil _ _ (marker_ne_nil i), mkSubst_nil, flatB_nil]
  | cons b t ih =>
    intro hc hm
    have hc' : chrOk t := fun x hx => hc x (List.mem_cons_of_mem _ hx)
    have hm' : marksIn i 30 t := fun x hx => hm x (List.mem_cons_of_mem _ hx)
    rw [mkSubst_cons, flatB_cons, flatB_append]
    cases b with
    | chr d =>
      have hd : okCh d := hc (Blk.chr d) (List.mem_cons_self _ _) d rfl
      rw [show (Blk.chr d).flat = [d] from rfl, List.singleton_append]
      rw [pyReplace_neg p d (flatB t) (marker_ne_nil i) (by
        intro hx
        rw [marker_cons i, List.cons_prefix_cons] at hx
        exact hd.1 hx.1.symm)]
      rw [ih hc' hm']
      rw [show flatB [Blk.chr d] = [d] from rfl, List.singleton_append]
    | mark j =>
      have hj := hm (Blk.mark j) (List.mem_cons_self _ _) j rfl
      rw [show (Blk.mark j).flat = marker j from rfl]
      dsimp only
      by_cases hij : j = i
      · subst hij
        rw [if_pos rfl, flat_chrMap]
        rw [pyReplace_pos _ p (marker_ne_nil j) (List.prefix_append _ _)]
        rw [List.drop_left, ih hc' hm']
      · rw [if_neg hij]
        rw [skipSeg (marker_ne_nil i) (marker j) (flatB t)
          (noSpurious hi hj.2 (fun hx => hij (hx.symm)) hc')]
        rw [ih hc' hm']
        rw [show flatB [Blk.mark j] = marker j ++ [] from by simp [flatB, Blk.flat]]
        rw [List.append_nil]

theorem mkSubst_blocks {bs : List Blk} {i : Nat} {p : List Char} {b : Blk}
    (hb : b ∈ mkSubst bs i p) :
    (∃ c ∈ p, b = Blk.chr c) ∨ (b ∈ bs ∧ ∀ hj : b = Blk.mark i, False) := by
  rw [mkSubst, List.mem_flatMap] at hb
  obtain ⟨x, hx, hbx⟩ := hb
  cases x with
  | chr c =>
    rw [List.mem_singleton] at hbx
    right
    refine ⟨hbx ▸ hx, ?_⟩
    intro hj
    rw [hbx] at hj
    exact Blk.noConfusion hj
  | mark j =>
    dsimp only at hbx
    by_cases hij : j = i
    · rw [if_pos hij] at hbx
      rw [List.mem_map] at hbx
      obtain ⟨c, hc, hbc⟩ := hbx
      exact Or.inl ⟨c, hc, hbc.symm⟩
    · rw [if_neg hij] at hbx
      rw [List.mem_singleton] at hbx
      right
      refine ⟨hbx ▸ hx, ?_⟩
      intro hj
      rw [hbx] at hj
      exact hij (Blk.mark.inj hj)

theorem mkSubst_chrOk {bs : List Blk} {i : Nat} {p : List Char}
    (hc : chrOk bs) (hp : ∀ c ∈ p, okCh c) : chrOk (mkSubst bs i p) := by
  intro b hb c hbc
  rcases mkSubst_blocks hb with ⟨c', hc', hbc'⟩ | ⟨hbs, _⟩
  · exact (Blk.chr.inj (hbc'.symm.trans hbc)) ▸ hp c' hc'
  · exact hc b hbs c hbc

theorem mkSubst_marks (p : List Char) {bs : List Blk} {i hi : Nat}
    (hm : marksIn i hi bs) : marksIn (i + 1) hi (mkSubst bs i p) := by
  intro b hb j hbj
  rcases mkSubst_blocks hb with ⟨c', _, hbc'⟩ | ⟨hbs, hne⟩
  · rw [hbc'] at hbj
    exact Blk.noConfusion hbj
  · have hb2 := hm b hbs j hbj
    have hji : j ≠ i := fun hji => hne (hji ▸ hbj)
    exact ⟨by omega, hb2.2⟩

theorem expandF_mkSubst (ps' : List (List Char)) (p : List Char) (t0 : Nat) :
    ∀ bs : List Blk, (∀ b ∈ bs, ∀ j, b = Blk.mark j → t0 ≤ j) →
    expandF (fun j => ps'.getD (j - (t0 + 1)) []) (mkSubst bs t0 p) =
    expandF (fun j => (p :: ps').getD (j - t0) []) bs := by
  intro bs
  induction bs with
  | nil => intro _; rfl
  | cons b t ih =>
    intro hm
    have hm' : ∀ b ∈ t, ∀ j, b = Blk.mark j → t0 ≤ j :=
      fun x hx => hm x (List.mem_cons_of_mem b hx)
    rw [mkSubst_cons, expandF_append, expandF_cons, ih hm']
    congr 1
    cases b with
    | chr c => rfl
    | mark j =>
      have hj : t0 ≤ j := hm (Blk.mark j) (List.mem_cons_self _ _) j rfl
      dsimp only
      by_cases hij : j = t0
      · subst hij
        rw [if_pos rfl, expandF_chrMap]
        rw [show j - j = 0 from by omega, List.getD_cons_zero]
      · rw [if_neg hij]
        show ps'.getD (j - (t0 + 1)) [] ++ [] = _
        rw [List.append_nil]
        rw [show j - t0 = (j - (t0 + 1)) + 1 from by omega, List.getD_cons_succ]

theorem flat_of_no_marks (nu : Nat → List Char) {bs : List Blk}
    (h : ∀ b ∈ bs, ∀ j, b = Blk.mark j → False) : expandF nu bs = flatB bs := by
  induction bs with
  | nil => rfl
  | cons b t ih =>
    rw [expandF_cons, flatB_cons,
      ih fun x hx => h x (List.mem_cons_of_mem b hx)]
    congr 1
    cases b with
    | chr c => rfl
    | mark j => exact absurd rfl (h (Blk.mark j) (List.mem_cons_self _ _) j)

theorem marker_no_eq (i : Nat) : ∀ c ∈ marker i, c ≠ '=' := by
  intro c hc
  rcases marker_chars hc with h | h
  · rw [h]
    decide
  · intro he
    rw [he] at h
    exact (by decide : ¬ isDigCh '=') h

theorem takeWhileNeStop {x : Char} (u v : List Char) (hu : ∀ c ∈ u, c ≠ x) :
    (u ++ x :: v).takeWhile (fun c => c != x) = u := by
  induction u with
  | nil =>
    rw [List.nil_append, List.takeWhile_cons]
    simp
  | cons d t ih =>
    rw [List.cons_append, List.takeWhile_cons]
    have : (d != x) = true := bne_iff_ne.mpr (hu d (List.mem_cons_self d t))
    rw [this]
    simp only [if_true]
    rw [ih fun c hc => hu c (List.mem_cons_of_mem d hc)]

/-- The whole marker-expansion loop of `decompress_code`, on block
structure: in rank order, each marker index becomes its pattern text. -/
theorem decompFold : ∀ (ps : List (List Char)) (t0 : Nat) (bs : List Blk),
    t0 + ps.length ≤ 30 →
    (∀ p ∈ ps, ∀ c ∈ p, okCh c) →
    chrOk bs →
    marksIn t0 (t0 + ps.length) bs →
    (headerEntries ps t0).foldl
      (fun code item =>
        if item.contains '=' then
          pyReplace code (item.takeWhile fun c => c != '=')
            ((item.dropWhile fun c => c != '=').drop 1)
        else code)
      (flatB bs) = expandF (fun j => ps.getD (j - t0) []) bs := by
  intro ps
  induction ps with
  | nil =>
    intro t0 bs _ _ _ hm
    rw [headerEntries, List.foldl_nil]
    exact (flat_of_no_marks _ fun b hb j hj => by
      have h2 := hm b hb j hj
      simp at h2
      omega).symm
  | cons p ps ih =>
    intro t0 bs hle hok hc hm
    have hps : ∀ x ∈ ps, ∀ c ∈ x, okCh c := fun x hx => hok x (List.mem_cons_of_mem p hx)
    have hpok : ∀ c ∈ p, okCh c := hok p (List.mem_cons_self p ps)
    have hlen : (p :: ps).length = ps.length + 1 := rfl
    rw [hlen] at hle hm
    rw [headerEntries, List.foldl_cons]
    rw [if_pos (containsOfMem (by
      rw [List.mem_append]
      exact Or.inr (List.mem_cons_self '=' p)))]
    rw [takeWhileNeStop _ _ (marker_no_eq t0), dropWhileNeStop _ _ (marker_no_eq t0)]
    rw [show ('=' :: p).drop 1 = p from rfl]
    rw [flat_mkSubst (show t0 < 30 by omega) p bs hc (fun b hb j hj => by
      have := hm b hb j hj
      exact ⟨this.1, by omega⟩)]
    rw [ih (t0 + 1) (mkSubst bs t0 p) (by omega) hps
      (mkSubst_chrOk hc hpok)
      (by
        have h3 := mkSubst_marks p hm
        intro b hb j hj
        have h2 := h3 b hb j hj
        exact ⟨h2.1, by omega⟩)]
    exact expandF_mkSubst ps p t0 bs fun b hb j hj => (hm b hb j hj).1

/-! ### Parsing the dictionary back -/

theorem splitOnCh_no_sep {sep : Char} : ∀ {u : List Char}, (∀ c ∈ u, c ≠ sep) →
    splitOnCh sep u = [u] := by
  intro u
  induction u with
  | nil => intro _; rfl
  | cons c t ih =>
    intro hu
    have hr := ih fun c' hc' => hu c' (List.mem_cons_of_mem c hc')
    simp only [splitOnCh, hr]
    rw [if_neg (hu c (List.mem_cons_self c t))]

theorem splitOnCh_append {sep : Char} (w : List Char) : ∀ {u : List Char},
    (∀ c ∈ u, c ≠ sep) → splitOnCh sep (u ++ sep :: w) = u :: splitOnCh sep w := by
  intro u
  induction u with
  | nil =>
    intro _
    rw [List.nil_append]
    simp only [splitOnCh]
    simp
  | cons c t ih =>
    intro hu
    rw [List.cons_append]
    have hr := ih fun c' hc' => hu c' (List.mem_cons_of_mem c hc')
    simp only [splitOnCh, hr]
    rw [if_neg (hu c (List.mem_cons_self c t))]

theorem splitOnCh_join : ∀ (items : List (List Char)), items ≠ [] →
    (∀ u ∈ items, ∀ c ∈ u, c ≠ ';') → splitOnCh ';' (joinSemi items) = items := by
  intro items
  induction items with
  | nil => intro h _; exact absurd rfl h
  | cons x rest ih =>
    intro _ hitems
    cases rest with
    | nil =>
      rw [show joinSemi [x] = x from rfl]
      exact splitOnCh_no_sep (hitems x (List.mem_cons_self x []))
    | cons y rest' =>
      rw [show joinSemi (x :: y :: rest') = x ++ ';' :: joinSemi (y :: rest') from rfl]
      rw [splitOnCh_append _ (hitems x (List.mem_cons_self _ _))]
      rw [ih (by simp) fun u hu => hitems u (List.mem_cons_of_mem x hu)]

theorem headerEntries_no_char {x : Char} (hx1 : x ≠ '#') (hx2 : ¬ isDigCh x)
    (hx3 : x ≠ '=') : ∀ (ps : List (List Char)) (i : Nat), (∀ p ∈ ps, x ∉ p) →
    ∀ u ∈ headerEntries ps i, x ∉ u := by
  intro ps
  induction ps with
  | nil => intro i _ u hu; simp [headerEntries] at hu
  | cons p ps ih =>
    intro i hps u hu hxu
    rw [headerEntries] at hu
    rcases List.mem_cons.mp hu with h | h
    · rw [h] at hxu
      rcases List.mem_append.mp hxu with h' | h'
      · rcases marker_chars h' with h'' | h''
        · exact hx1 h''
        · exact hx2 h''
      · rcases List.mem_cons.mp h' with h'' | h''
        · exact hx3 h''
        · exact hps p (List.mem_cons_self p ps) h''
    · exact ih (i + 1) (fun q hq => hps q (List.mem_cons_of_mem p hq)) u h hxu

theorem joinSemi_no_char {x : Char} (hx : x ≠ ';') : ∀ (items : List (List Char)),
    (∀ u ∈ items, x ∉ u) → x ∉ joinSemi items := by
  intro items
  induction items with
  | nil => intro _; simp [joinSemi]
  | cons u rest ih =>
    intro hitems hmem
    cases rest with
    | nil => exact hitems u (List.mem_cons_self u []) hmem
    | cons y rest' =>
      rw [show joinSemi (u :: y :: rest') = u ++ ';' :: joinSemi (y :: rest') from rfl] at hmem
      rcases List.mem_append.mp hmem with h | h
      · exact hitems u (List.mem_cons_self _ _) h
      · rcases List.mem_cons.mp h with h' | h'
        · exact hx h'
        · exact ih (fun q hq => hitems q (List.mem_cons_of_mem u hq)) h'

theorem stripAll_no_nl : ∀ {v : List Char}, '\n' ∉ v → stripAll v = v := by
  intro v
  induction v with
  | nil => intro _; rfl
  | cons c t ih =>
    intro hv
    rw [stripAll_neg (headerOkB_no_nl hv), ih fun hm => hv (List.mem_cons_of_mem c hm)]

theorem mem_flatB {c : Char} {bs : List Blk} (h : c ∈ flatB bs) :
    (∃ b ∈ bs, b = Blk.chr c) ∨ ∃ j, Blk.mark j ∈ bs ∧ c ∈ marker j := by
  rw [flatB, List.mem_flatMap] at h
  obtain ⟨b, hb, hcb⟩ := h
  cases b with
  | chr d =>
    rw [show (Blk.chr d).flat = [d] from rfl, List.mem_singleton] at hcb
    exact Or.inl ⟨Blk.chr d, hb, by rw [hcb]⟩
  | mark j => exact Or.inr ⟨j, hb, hcb⟩

/-! ### The selected patterns are nonempty substrings of the input -/

theorem mem_alookup_isSome : ∀ {m : List (List Char × Nat)} {p : List Char} {c : Nat},
    (p, c) ∈ m → (alookup m p).isSome := by
  intro m
  induction m with
  | nil => intro p c h; simp at h
  | cons kv t ih =>
    intro p c h
    obtain ⟨k', v⟩ := kv
    rw [alookup]
    split
    · rfl
    · rcases List.mem_cons.mp h with h' | h'
      · rename_i hne
        injection h' with h1 h2
        exact absurd h1.symm hne
      · exact ih h'

theorem sliceAt_subset (code : List Char) (i len : Nat) :
    ∀ c ∈ sliceAt code i len, c ∈ code := fun c hc =>
  List.drop_subset i code (List.take_subset len _ hc)

theorem sel_mem {code p : List Char}
    (h : p ∈ (selectedPatterns (detect_common_patterns code)).map Prod.fst) :
    p ≠ [] ∧ ∀ c ∈ p, c ∈ code := by
  rw [List.mem_map] at h
  obtain ⟨⟨p', cnt⟩, hmem, hfst⟩ := h
  have hp : p' = p := hfst
  subst hp
  have h1 := List.mem_of_mem_take hmem
  have h2 := mem_sortDesc h1
  have h3 := List.mem_of_mem_filter h2
  have h4 := mem_alookup_isSome h3
  rw [Option.isSome_iff_exists] at h4
  obtain ⟨c', hc'⟩ := h4
  rw [detect_common_patterns_characterization] at hc'
  obtain ⟨h20, _, _, ⟨i, hi, hslice⟩, _⟩ := hc'
  constructor
  · intro hnil
    rw [hnil] at h20
    simp at h20
  · intro c hc
    rw [← hslice] at hc
    exact sliceAt_subset code i _ c hc

/-! ### The round trip -/

theorem headerEntries_ne_nil {ps : List (List Char)} (h : ps ≠ []) (i : Nat) :
    headerEntries ps i ≠ [] := by
  intro he
  apply h
  have := headerEntries_length ps i
  rw [he] at this
  exact List.eq_nil_of_length_eq_zero this.symm

theorem roundtripCore (B : List Char) (sel : List (List Char))
    (hB : ∀ c ∈ B, c ≠ '#' ∧ c ≠ ';' ∧ c ≠ '\n' ∧ ¬ isDigCh c)
    (hselB : ∀ p ∈ sel, p ≠ [] ∧ ∀ c ∈ p, c ∈ B)
    (hsel30 : sel.length ≤ 30) :
    decompress_code
        ("# dict:".toList ++ joinSemi (headerEntries sel 0) ++ '\n' :: applySubs B sel 0) =
      B := by
  have hselOk : ∀ p ∈ sel, p ≠ [] ∧ ∀ c ∈ p, okCh c := fun p hp =>
    ⟨(hselB p hp).1, fun c hc =>
      ⟨(hB c ((hselB p hp).2 c hc)).1, (hB c ((hselB p hp).2 c hc)).2.2.2⟩⟩
  have hbody : applySubs B sel 0 = flatB (subsBlocks (B.map Blk.chr) sel 0) := by
    conv_lhs => rw [show B = flatB (B.map Blk.chr) from (flat_chrMap B).symm]
    exact applySubs_flat sel 0 (B.map Blk.chr) hselOk
  have hblocks : ∀ b ∈ subsBlocks (B.map Blk.chr) sel 0,
      (∃ k, k < sel.length ∧ b = Blk.mark (0 + k)) ∨ b ∈ B.map Blk.chr :=
    fun b hb => subsBlocks_blocks sel 0 _ b hb
  have hchrOk : chrOk (subsBlocks (B.map Blk.chr) sel 0) := by
    intro b hb c hbc
    rcases hblocks b hb with ⟨k, _, hbk⟩ | h
    · rw [hbk] at hbc
      exact Blk.noConfusion hbc
    · rw [List.mem_map] at h
      obtain ⟨c', hc', hcc⟩ := h
      have hcc' : c' = c := Blk.chr.inj (hcc.trans hbc)
      rw [← hcc']
      exact ⟨(hB c' hc').1, (hB c' hc').2.2.2⟩
  have hmarks : marksIn 0 (0 + sel.length) (subsBlocks (B.map Blk.chr) sel 0) := by
    intro b hb j hbj
    rcases hblocks b hb with ⟨k, hk, hbk⟩ | h
    · rw [hbk] at hbj
      have hkj : 0 + k = j := Blk.mark.inj hbj
      omega
    · rw [List.mem_map] at h
      obtain ⟨c', _, hcc⟩ := h
      rw [← hcc] at hbj
      exact Blk.noConfusion hbj
  have hbody_nl : '\n' ∉ flatB (subsBlocks (B.map Blk.chr) sel 0) := by
    intro hm
    rcases mem_flatB hm with ⟨b, hb, hbc⟩ | ⟨j, hj, hcm⟩
    · rcases hblocks b hb with ⟨k, _, hbk⟩ | h
      · rw [hbk] at hbc
        exact Blk.noConfusion hbc
      · rw [List.mem_map] at h
        obtain ⟨c', hc', hcc⟩ := h
        have hcc' : c' = '\n' := Blk.chr.inj (hcc.trans hbc)
        rw [hcc'] at hc'
        exact (hB '\n' hc').2.2.1 rfl
    · rcases marker_chars hcm with h | h
      · exact absurd h (by decide)
      · exact absurd h (by decide)
  have hsel_semi : ∀ p ∈ sel, (';' : Char) ∉ p := fun p hp hsem =>
    (hB ';' ((hselB p hp).2 _ hsem)).2.1 rfl
  have hsel_nlf : ∀ p ∈ sel, ('\n' : Char) ∉ p := fun p hp hnl =>
    (hB '\n' ((hselB p hp).2 _ hnl)).2.2.1 rfl
  have hdict_nl : '\n' ∉ joinSemi (headerEntries sel 0) :=
    joinSemi_no_char (by decide) _
      (headerEntries_no_char (by decide) (by decide) (by decide) sel 0 hsel_nlf)
  have hitems_semi : ∀ u ∈ headerEntries sel 0, ∀ c ∈ u, c ≠ ';' := by
    intro u hu c hc hceq
    exact headerEntries_no_char (by decide) (by decide) (by decide) sel 0 hsel_semi u hu
      (hceq ▸ hc)
  rw [List.append_assoc]
  have hok : headerOkB
      ("# dict:".toList ++ (joinSemi (headerEntries sel 0) ++ '\n' :: applySubs B sel 0)) =
      true := headerOkB_header (by simp)
  have hstrip : stripAll
      ("# dict:".toList ++ (joinSemi (headerEntries sel 0) ++ '\n' :: applySubs B sel 0)) =
      applySubs B sel 0 := by
    rw [stripAll_header _ _ hdict_nl, hbody]
    exact stripAll_no_nl hbody_nl
  simp only [decompress_code, hok, if_true]
  rw [drop7Header, takeWhileNeStop _ _ (fun c hc hceq => hdict_nl (by 
    rw [hceq] at hc
    exact hc))]
  rw [hstrip, hbody]
  by_cases hselnil : sel = []
  · subst hselnil
    show flatB (B.map Blk.chr) = B
    exact flat_chrMap B
  · rw [splitOnCh_join (headerEntries sel 0) (headerEntries_ne_nil hselnil 0) hitems_semi]
    rw [decompFold sel 0 (subsBlocks (B.map Blk.chr) sel 0) (by omega)
      (fun p hp => (hselOk p hp).2) hchrOk hmarks]
    rw [subsBlocks_expandF _ sel 0 (B.map Blk.chr) (fun k hk => by simp)]
    exact expandF_chrMap _ B

/-- Claim C1 (amended): for every body string `B` containing no hash, no
semicolon, no newline and no decimal digit characters (in particular no
substring of the shape `##<digits>##` and no header-shaped line), running
pattern detection on `B`, then `compress_patterns` with the resulting
pattern table, then `decompress_code` on the artifact, returns exactly
`B`. -/
theorem substitution_roundtrip (B : List Char)
    (hB : ∀ c ∈ B, c ≠ '#' ∧ c ≠ ';' ∧ c ≠ '\n' ∧ ¬ isDigCh c) :
    decompress_code (compress_patterns B (detect_common_patterns B)) = B := by
  have h30 : ((selectedPatterns (detect_common_patterns B)).map Prod.fst).length ≤ 30 := by
    rw [List.length_map, selectedPatterns, List.length_take]
    exact Nat.min_le_left _ _
  exact roundtripCore B ((selectedPatterns (detect_common_patterns B)).map Prod.fst) hB
    (fun p hp => sel_mem hp) h30

/-- Witness for the amended C1 on a concrete safe body. -/
theorem substitution_roundtrip_witness :
    (∀ c ∈ "hello world".toList, c ≠ '#' ∧ c ≠ ';' ∧ c ≠ '\n' ∧ ¬ isDigCh c) ∧
    decompress_code
        (compress_patterns "hello world".toList
          (detect_common_patterns "hello world".toList)) = "hello world".toList :=
  ⟨by decide, substitution_roundtrip "hello world".toList (by decide)⟩

/-- Counterexample to C1 as stated: the body `"# dict:x\nhello"` contains
no substring of the shape `##<digits>##`, yet the round trip returns
`"hello"`, because the decompressor's global `re.sub` deletes the
header-shaped line inside the body as well. -/
theorem roundtrip_counterexample :
    containsMarkerSub "# dict:x\nhello".toList = false ∧
    decompress_code
        (compress_patterns "# dict:x\nhello".toList
          (detect_common_patterns "# dict:x\nhello".toList)) =
      "hello".toList ∧
    "hello".toList ≠ "# dict:x\nhello".toList := by
  refine ⟨by decide, by decide, by decide⟩

/-! ### The identifier renamer -/

/-- The reserved-word set built in `CodeCompressor.__init__`
(`code_compressor.py:24-29`) and passed to `IdentifierShortener`. -/
def reserved_words : List (List Char) :=
  ["False".toList, "None".toList, "True".toList, "and".toList, "as".toList,
   "assert".toList, "async".toList, "await".toList, "break".toList, "class".toList,
   "continue".toList, "def".toList, "del".toList, "elif".toList, "else".toList,
   "except".toList, "finally".toList, "for".toList, "from".toList, "global".toList,
   "if".toList, "import".toList, "in".toList, "is".toList, "lambda".toList,
   "nonlocal".toList, "not".toList, "or".toList, "pass".toList, "raise".toList,
   "return".toList, "try".toList, "while".toList, "with".toList, "yield".toList]

/-- Modelled from the spec: the constant-like predicate ("all uppercase
plus underscores", §3) intended by the guard of `visit_Name`.  The source
literal `re.match(r'^[A-Z_]+, node.id))` at `identifier_shortener.py:45`
is an unterminated string, so the module cannot be imported; the spec's
words give the intended check. -/
def isConstLike (s : List Char) : Bool :=
  !s.isEmpty && s.all fun c => decide (('A' ≤ c ∧ c ≤ 'Z') ∨ c = '_')

/-- The skip guard of `IdentifierShortener.visit_Name`
(`identifier_shortener.py:41-46`): reserved words, names starting with or
ending with a double underscore, names starting with an underscore, and
(spec-modelled) constant-like names are returned untouched. -/
def skipName (s : List Char) : Bool :=
  reserved_words.contains s || "__".toList.isPrefixOf s || "__".toList.isSuffixOf s ||
    "_".toList.isPrefixOf s || isConstLike s

/-- One `visit_Name` step (`identifier_shortener.py:38-57`) on the renamer
state: the identifier map (an association list in insertion order, as a
Python dict) and `next_short_id`.  A non-skipped name not yet in the map
is bound to a fresh short identifier. -/
def visit_Name (st : List (List Char × List Char) × Nat) (name : List Char) :
    List (List Char × List Char) × Nat :=
  if skipName name then st
  else if (st.1.map Prod.fst).contains name then st
  else
    ((st.1 ++ [(name, (generate_short_identifier st.2).1)]),
      (generate_short_identifier st.2).2)

/-- A full renamer run over the `Name` nodes of a tree, in traversal
order, starting from a fresh session state. -/
def runRenamer (names : List (List Char)) : List (List Char × List Char) × Nat :=
  names.foldl visit_Name ([], 0)

/-- Every key ever admitted into the identifier map passed the guard. -/
theorem runRenamer_keys_guard : ∀ (names : List (List Char))
    (st : List (List Char × List Char) × Nat),
    (∀ k ∈ st.1.map Prod.fst, skipName k = false) →
    ∀ k ∈ (names.foldl visit_Name st).1.map Prod.fst, skipName k = false := by
  intro names
  induction names with
  | nil => intro st h; exact h
  | cons name rest ih =>
    intro st h
    rw [List.foldl_cons]
    apply ih
    rw [visit_Name]
    split
    · exact h
    · split
      · exact h
      · rename_i hskip _
        intro k hk
        rw [List.map_append, List.mem_append] at hk
        rcases hk with hk | hk
        · exact h k hk
        · rw [List.map_cons, List.map_nil, List.mem_singleton] at hk
          rw [hk]
          exact Bool.not_eq_true _ ▸ eq_false_of_ne_true (by
            intro htrue
            exact hskip htrue)

/-- Claim C3, on the modelled renamer: a run over a node list containing a
reserved word, a constant-like name, a dunder name and a private name maps
only the two ordinary names; no key of the identifier map is reserved,
dunder-like, private-like, or constant-like.  (The claim targets
`visit_Name` as intended; the shipped source cannot run at all, see the
code-bug record for this claim.) -/
theorem renamer_guard_model_run :
    (runRenamer ["for".toList, "API_KEY".toList, "__init__".toList, "_private".toList,
        "total".toList, "value".toList, "total".toList]).1.map Prod.fst =
      ["total".toList, "value".toList] ∧
    ∀ k ∈ (runRenamer ["for".toList, "API_KEY".toList, "__init__".toList,
        "_private".toList, "total".toList, "value".toList, "total".toList]).1.map Prod.fst,
      reserved_words.contains k = false ∧
      ¬ ("__".toList.isPrefixOf k ∧ "__".toList.isSuffixOf k) ∧
      "_".toList.isPrefixOf k = false ∧
      isConstLike k = false := by
  constructor
  · decide
  · decide
